import Mathlib

/-!
Verification of the version-history graph core of the `vscode-forge`
extension: the hotfix version-string parser (`hotfix-parser.ts`), the
relationship builder, the graph assembler and the layout engine
(`graph-layout.ts`, which ships in two variants: a horizontal layout,
called `GraphA` below, and a vertical layout with orphan handling,
called `GraphB`; a third variant of the layout file, with a reversed
vertical main line and no orphan handling, is called `GraphC`).

Numbers are modelled as `Nat`: every coordinate and spacing value the
code computes is a non-negative integer when the spacing options are,
and the configured defaults (150/80/20) are.  Strings are Lean
`String`s; a JavaScript `Map` keyed by strings is modelled as an
insertion-ordered association list with overwrite-in-place semantics
(`mset` / `mget`), matching `Map.set` / `Map.get` and the iteration
order of `Map.entries()` / `Map.values()`.
-/

namespace Forge

/-- `VersionHistoryEntry` from `types/forge.ts`: the raw fields plus the
derived fields added by `enrichVersionsWithHotfixData` (optional in the
TypeScript interface; here defaulted). -/
structure VersionHistoryEntry where
  version : String
  tag : String
  commit : String := ""
  date : String := ""
  message : String := ""
  isHotfix : Bool := false
  baseTag : Option String := none
  hotfixSequence : Option Nat := none
  children : List String := []
  deriving DecidableEq, Repr, Inhabited

/-- `HotfixInfo` from `hotfix-parser.ts`. -/
structure HotfixInfo where
  isHotfix : Bool
  baseVersion : Option String := none
  suffix : Option String := none
  sequence : Option Nat := none
  deriving DecidableEq, Repr

/-- Digit test for one character, JavaScript `\d` = `[0-9]`. -/
def isDigitChar (c : Char) : Bool := '0' ≤ c && c ≤ '9'

/-- `\d+` anchored: a non-empty list of digit characters. -/
def isDigits (ds : List Char) : Bool := !ds.isEmpty && ds.all isDigitChar

/-- `parseInt(d, 10)` on a digit string. -/
def digitsToNat (ds : List Char) : Nat :=
  ds.foldl (fun a c => a * 10 + (c.toNat - 48)) 0

/-- Strip a literal pattern `p` from the front of `r`; `some t` when
`r = p ++ t`.  This is the regex engine's literal matching step. -/
def stripPre : List Char → List Char → Option (List Char)
  | [], r => some r
  | _ :: _, [] => none
  | p :: ps, c :: cs => if p = c then stripPre ps cs else none

/-- One alternative `s` of the suffix alternation, applied at a fixed
base split: the remainder after the dash must be `s` ++ `"."` ++ digits,
anchored at the end of the string. -/
def trySuffix (rest : List Char) (s : String) : Option (String × Nat) :=
  match stripPre s.data rest with
  | some ('.' :: ds) => if isDigits ds then some (s, digitsToNat ds) else none
  | _ => none

/-- The alternation `(suffix1|suffix2|...)` tried left to right, as the
regex engine does. -/
def matchSuffix : List Char → List String → Option (String × Nat)
  | _, [] => none
  | rest, s :: ss =>
    match trySuffix rest s with
    | some r => some r
    | none => matchSuffix rest ss

/-- Greedy search for the split `base ++ "-" ++ suffix ++ "." ++ digits`
of the regex `(.+)-(suffixes)\.(\d+)$`: the base may be empty here (the
caller supplies the first, mandatory character of `(.+)`), and the
longest base wins, exactly as the greedy `(.+)` backtracks. -/
def findSplit : List Char → List String → Option (List Char × String × Nat)
  | [], _ => none
  | c :: rest, sfx =>
    match findSplit rest sfx with
    | some (b, s, n) => some (c :: b, s, n)
    | none =>
      if c = '-' then
        match matchSuffix rest sfx with
        | some (s, n) => some ([], s, n)
        | none => none
      else none

/-- `parseHotfixVersion` from `hotfix-parser.ts`: match the version
string against `^(.+)-(suffix1|suffix2|...)\.(\d+)$` and return the parsed
fields, or `isHotfix: false` on a non-match.

Modelling note: the suffixes are taken as LITERAL strings, which is the
matching rule the specification states and the behaviour of the source for
the default and any metacharacter-free suffix set.  The source itself splices
the suffixes unescaped into `new RegExp(...)`, so a suffix containing regex
syntax changes the matching semantics, and a regex-invalid one (e.g. `"("`)
makes the `RegExp` constructor throw a `SyntaxError`; that error path is
outside this model and is recorded against the totality claim. -/
def parseHotfixVersion (version : String)
    (suffixes : List String := ["hotfix", "patch", "fix"]) : HotfixInfo :=
  match version.data with
  | [] => { isHotfix := false }
  | c :: rest =>
    match findSplit rest suffixes with
    | some (b, s, n) =>
      { isHotfix := true, baseVersion := some (String.mk (c :: b)),
        suffix := some s, sequence := some n }
    | none => { isHotfix := false }

/-- `isHotfixVersion` from `hotfix-parser.ts`. -/
def isHotfixVersion (version : String)
    (suffixes : List String := ["hotfix", "patch", "fix"]) : Bool :=
  (parseHotfixVersion version suffixes).isHotfix

/-- `getBaseTag` from `hotfix-parser.ts`. -/
def getBaseTag (version : String)
    (suffixes : List String := ["hotfix", "patch", "fix"]) : Option String :=
  let info := parseHotfixVersion version suffixes
  if info.isHotfix then info.baseVersion else none

/-- The specification's matching rule, stated independently of the
implementation: `v` splits as `b ++ "-" ++ s ++ "." ++ d` with a
non-empty base `b`, a recognized suffix `s` and a non-empty digit
string `d`. -/
def IsHotfixSplit (v : List Char) (sfx : List String)
    (b : List Char) (s : String) (d : List Char) : Prop :=
  v = b ++ '-' :: (s.data ++ '.' :: d) ∧ b ≠ [] ∧ s ∈ sfx ∧ isDigits d = true

/-- `VersionGraphNode` from `types/forge.ts` (coordinates as `Nat`). -/
structure VersionGraphNode where
  id : String
  version : String
  commit : String
  date : String
  message : String
  isHotfix : Bool
  baseTag : Option String
  children : List String
  x : Nat
  y : Nat
  deriving DecidableEq, Repr, Inhabited

/-- `VersionGraphEdge` from `types/forge.ts` (`from` is a Lean keyword,
hence `from_` / `to_`). -/
structure VersionGraphEdge where
  from_ : String
  to_ : String
  isHotfix : Bool
  deriving DecidableEq, Repr

/-- `GraphLayout` from `graph-layout.ts`. -/
structure GraphLayout where
  nodes : List VersionGraphNode
  edges : List VersionGraphEdge
  width : Nat
  height : Nat
  deriving DecidableEq, Repr

/-- `LayoutOptions` merged with `DEFAULT_OPTIONS`; both variants of
`graph-layout.ts` use the same field names and the same default values. -/
structure LayoutOptions where
  horizontalSpacing : Nat := 150
  verticalSpacing : Nat := 80
  nodeRadius : Nat := 20
  hotfixSuffixes : List String := ["hotfix", "patch", "fix"]
  deriving DecidableEq, Repr

/-- JavaScript `Map.get` over the insertion-ordered association list. -/
def mget {α : Type} : List (String × α) → String → Option α
  | [], _ => none
  | (k, v) :: rest, key => if k = key then some v else mget rest key

/-- JavaScript `Map.set`: overwrite the value in place for an existing key
(keeping its insertion position), append new keys at the end. -/
def mset {α : Type} : List (String × α) → String → α → List (String × α)
  | [], key, v => [(key, v)]
  | (k, w) :: rest, key, v =>
    if k = key then (k, v) :: rest else (k, w) :: mset rest key v

/-- Stable insertion of `x` into a list sorted ascending by `key`: `x` goes
before the first strictly larger element and after equal ones. -/
def insortBy {α : Type} (key : α → Nat) (x : α) : List α → List α
  | [] => [x]
  | y :: ys => if key x ≤ key y then x :: y :: ys else y :: insortBy key x ys

/-- Stable sort by a `Nat` key: extensionally equal to JavaScript's stable
`Array.prototype.sort` with comparator `(a, b) => key a - key b`. -/
def sortStableBy {α : Type} (key : α → Nat) : List α → List α
  | [] => []
  | x :: xs => insortBy key x (sortStableBy key xs)

/-- The sort key used at every sort site of the source:
`parseHotfixVersion(x, suffixes).sequence || 0`. -/
def seqKey (sfx : List String) (s : String) : Nat :=
  ((parseHotfixVersion s sfx).sequence).getD 0

/-- `buildHotfixRelationships` from `hotfix-parser.ts`: group the tags of
hotfix entries under their parsed `baseVersion` (a JS `Map`, insertion
ordered), then sort each child list by sequence number.  The guard
`info.isHotfix && info.baseVersion` also rejects an empty `baseVersion`
(falsy in JS); the parser never produces one, but the guard is kept. -/
def buildHotfixRelationships (versions : List VersionHistoryEntry)
    (suffixes : List String) : List (String × List String) :=
  let relationships := versions.foldl
    (fun rel version =>
      let info := parseHotfixVersion version.version suffixes
      match info.isHotfix, info.baseVersion with
      | true, some base =>
        if base = "" then rel
        else mset rel base ((mget rel base).getD [] ++ [version.tag])
      | _, _ => rel)
    []
  relationships.map (fun p => (p.1, sortStableBy (seqKey suffixes) p.2))

/-- `enrichVersionsWithHotfixData` from `hotfix-parser.ts`: first pass adds
the parsed hotfix fields; second pass attaches `children` from the child map
keyed by the entry's own `version` string (to every entry). -/
def enrichVersionsWithHotfixData (versions : List VersionHistoryEntry)
    (suffixes : List String) : List VersionHistoryEntry :=
  let enriched := versions.map (fun v =>
    let hotfixInfo := parseHotfixVersion v.version suffixes
    { v with isHotfix := hotfixInfo.isHotfix, baseTag := hotfixInfo.baseVersion,
             hotfixSequence := hotfixInfo.sequence })
  let childMap := buildHotfixRelationships versions suffixes
  enriched.map (fun v => { v with children := (mget childMap v.version).getD [] })

/-- Node construction shared by both `createNodesAndEdges` variants
(`isHotfix: version.isHotfix || false` and `children: version.children || []`
are absorbed by the non-optional Lean fields). -/
def mkNode (version : VersionHistoryEntry) : VersionGraphNode :=
  { id := version.tag, version := version.version, commit := version.commit,
    date := version.date, message := version.message,
    isHotfix := version.isHotfix, baseTag := version.baseTag,
    children := version.children, x := 0, y := 0 }

/-- JS truthiness of `node.baseTag`: `undefined` and `""` are falsy. -/
def truthyBaseTag (t : Option String) : Option String :=
  match t with
  | some b => if b = "" then none else some b
  | none => none

/-- The `nodeMap` built during node creation: tag → index of the node object
stored under that tag (JS `Map.set` overwrites, so the last node with a given
tag; the key keeps its first insertion position). -/
def nodeIdxMap (nodes : List VersionGraphNode) : List (String × Nat) :=
  nodes.enum.foldl (fun m pr => mset m pr.2.id pr.1) []

/-- `for i in 0..len-2: edges.push({from: ids[i], to: ids[i+1], ...})`. -/
def consecutiveEdges (isHotfix : Bool) : List String → List VersionGraphEdge
  | a :: b :: rest =>
    { from_ := a, to_ := b, isHotfix := isHotfix } :: consecutiveEdges isHotfix (b :: rest)
  | _ => []

/-- Intra-chain edges contributed by one node: sort its children by sequence
and connect consecutive pairs (identical in both variants). -/
def chainEdgesOf (sfx : List String) (n : VersionGraphNode) : List VersionGraphEdge :=
  if !n.isHotfix && !n.children.isEmpty then
    consecutiveEdges true (sortStableBy (seqKey sfx) n.children)
  else []

/-- Base→hotfix edge of one node in the first (horizontal) variant:
`nodeMap.get(node.baseTag)` checks existence only, and the emitted edge's
`from` is the raw `baseTag` string. -/
def baseEdgeA (nodeMap : List (String × Nat)) (node : VersionGraphNode) :
    List VersionGraphEdge :=
  match node.isHotfix, truthyBaseTag node.baseTag with
  | true, some b =>
    match mget nodeMap b with
    | some _ => [{ from_ := b, to_ := node.id, isHotfix := true }]
    | none => []
  | _, _ => []

/-- `Array.from(nodeMap.values()).find(n => n.version === b || n.id === b)`
used by the second (vertical) variant, returning the index of the found node
object in the node list. -/
def findIdx (nodes : List VersionGraphNode) (b : String) : List Nat → Option Nat
  | [] => none
  | i :: rest =>
    let n := nodes.getD i default
    if n.version = b || n.id = b then some i else findIdx nodes b rest

/-- Resolve a base reference the way the second variant does everywhere:
scan the `nodeMap` values in insertion order for a node whose `version` or
`id` equals the reference. -/
def findBase (nodes : List VersionGraphNode) (b : String) : Option Nat :=
  findIdx nodes b ((nodeIdxMap nodes).map (fun p => p.2))

/-- Base→hotfix edge of one node in the second (vertical) variant: resolve by
`version` or `id` and emit the edge from the resolved node's `id`. -/
def baseEdgeB (nodes : List VersionGraphNode) (node : VersionGraphNode) :
    List VersionGraphEdge :=
  match node.isHotfix, truthyBaseTag node.baseTag with
  | true, some b =>
    match findBase nodes b with
    | some i => [{ from_ := (nodes.getD i default).id, to_ := node.id, isHotfix := true }]
    | none => []
  | _, _ => []

/-- Indices of the main-line (non-hotfix) nodes, in input order. -/
def mainIdx (nodes : List VersionGraphNode) : List Nat :=
  (nodes.enum.filter (fun pr => !pr.2.isHotfix)).map (fun pr => pr.1)

/-- Pointwise update of the position state (object mutation of one node). -/
def updPos (p : Nat → Nat × Nat) (i : Nat) (v : Nat × Nat) : Nat → Nat × Nat :=
  fun j => if j = i then v else p j

/-- `list.forEach((node, index) => assign node position f(index))`. -/
def assignSeq (f : Nat → Nat × Nat) : List Nat → Nat → (Nat → Nat × Nat) → Nat → Nat × Nat
  | [], _, p => p
  | i :: is, j, p => assignSeq f is (j + 1) (updPos p i (f j))

/-- Hotfix-branch assignment of the first variant:
`hotfix.x = baseNode.x; hotfix.y = (index + 1) * verticalSpacing`
(the base position is re-read at every iteration, as the code does). -/
def assignBranchA (vs : Nat) (bi : Nat) :
    List Nat → Nat → (Nat → Nat × Nat) → Nat → Nat × Nat
  | [], _, p => p
  | i :: is, j, p => assignBranchA vs bi is (j + 1) (updPos p i ((p bi).1, (j + 1) * vs))

/-- Hotfix-branch assignment of the second and third variants:
`hotfix.x = (index + 1) * horizontalSpacing; hotfix.y = baseNode.y`. -/
def assignBranchB (hs : Nat) (bi : Nat) :
    List Nat → Nat → (Nat → Nat × Nat) → Nat → Nat × Nat
  | [], _, p => p
  | i :: is, j, p => assignBranchB hs bi is (j + 1) (updPos p i ((j + 1) * hs, (p bi).2))

/-- The `hotfixGroups` map: baseTag → indices of the hotfix nodes carrying
that baseTag, in input order (JS `Map` insertion order). -/
def hotfixGroups (nodes : List VersionGraphNode) : List (String × List Nat) :=
  nodes.enum.foldl (fun g pr =>
    match pr.2.isHotfix, truthyBaseTag pr.2.baseTag with
    | true, some b => mset g b ((mget g b).getD [] ++ [pr.1])
    | _, _ => g) []

/-- Sort key for a hotfix group member: `parseHotfixVersion(node.version)`. -/
def groupKey (sfx : List String) (nodes : List VersionGraphNode) (i : Nat) : Nat :=
  seqKey sfx (nodes.getD i default).version

/-- The bucket key an entry contributes to in `buildHotfixRelationships`
(`none` when it contributes nothing). -/
def childKey (sfx : List String) (e : VersionHistoryEntry) : Option String :=
  let info := parseHotfixVersion e.version sfx
  match info.isHotfix, info.baseVersion with
  | true, some base => if base = "" then none else some base
  | _, _ => none

/-- The group key an indexed node contributes to in `hotfixGroups`
(`none` when it is not a grouped hotfix). -/
def groupKeyOpt (pr : Nat × VersionGraphNode) : Option String :=
  match pr.2.isHotfix, truthyBaseTag pr.2.baseTag with
  | true, some b => some b
  | _, _ => none

/-- The node produced for entry `v` by `enrich` followed by `mkNode`,
written elementwise. -/
def nodeOf (entries : List VersionHistoryEntry) (sfx : List String)
    (v : VersionHistoryEntry) : VersionGraphNode :=
  let info := parseHotfixVersion v.version sfx
  { id := v.tag, version := v.version, commit := v.commit, date := v.date,
    message := v.message, isHotfix := info.isHotfix, baseTag := info.baseVersion,
    children := (mget (buildHotfixRelationships entries sfx) v.version).getD [],
    x := 0, y := 0 }

/-- Write the computed positions back into the node objects. -/
def positionNodes (p : Nat → Nat × Nat) (nodes : List VersionGraphNode) :
    List VersionGraphNode :=
  nodes.enum.map (fun pr => { pr.2 with x := (p pr.1).1, y := (p pr.1).2 })

/- The first variant of `graph-layout.ts`: horizontal main line
(`x = index * horizontalSpacing, y = 0`), hotfixes stacked vertically below
their base, base resolution by tag via `nodeMap.get`, no orphan handling,
bounds padding `nodeRadius * 4`. -/
namespace GraphA

/-- `createNodesAndEdges` (first variant). -/
def createNodesAndEdges (sfx : List String) (versions : List VersionHistoryEntry) :
    List VersionGraphNode × List VersionGraphEdge :=
  let nodes := versions.map mkNode
  let mainLineNodes := nodes.filter (fun n => !n.isHotfix)
  let mainEdges := consecutiveEdges false (mainLineNodes.map (fun n => n.id))
  let baseEdges := (nodes.map (baseEdgeA (nodeIdxMap nodes))).flatten
  let chainEdges := (nodes.map (chainEdgesOf sfx)).flatten
  (nodes, mainEdges ++ baseEdges ++ chainEdges)

/-- `calculatePositions` (first variant). -/
def calculatePositions (opts : LayoutOptions) (nodes : List VersionGraphNode) :
    Nat → Nat × Nat :=
  let p1 := assignSeq (fun j => (j * opts.horizontalSpacing, 0)) (mainIdx nodes) 0
    (fun _ => (0, 0))
  (hotfixGroups nodes).foldl (fun p g =>
    let sorted := sortStableBy (groupKey opts.hotfixSuffixes nodes) g.2
    match mget (nodeIdxMap nodes) g.1 with
    | none => p
    | some bi => assignBranchA opts.verticalSpacing bi sorted 0 p) p1

/-- `calculateBounds` (first variant): padding `nodeRadius * 4` on both axes. -/
def calculateBounds (opts : LayoutOptions) (nodes : List VersionGraphNode) : Nat × Nat :=
  if nodes.isEmpty then (0, 0)
  else
    let maxX := nodes.foldl (fun m n => max m n.x) 0
    let maxY := nodes.foldl (fun m n => max m n.y) 0
    let padding := opts.nodeRadius * 4
    (maxX + padding, maxY + padding)

/-- `buildGraph` (first variant). -/
def buildGraph (opts : LayoutOptions) (versions : List VersionHistoryEntry) : GraphLayout :=
  if versions.isEmpty then { nodes := [], edges := [], width := 0, height := 0 }
  else
    let enrichedVersions := enrichVersionsWithHotfixData versions opts.hotfixSuffixes
    let ne := createNodesAndEdges opts.hotfixSuffixes enrichedVersions
    let p := calculatePositions opts ne.1
    let nodes := positionNodes p ne.1
    let wh := calculateBounds opts nodes
    { nodes := nodes, edges := ne.2, width := wh.1, height := wh.2 }

end GraphA

/- The second variant of `graph-layout.ts`: vertical main line
(`x = 0, y = index * verticalSpacing`), hotfixes branching right, base
resolution by `version` or `id`, orphan fallback placement, bounds padding
200 (horizontal) / 100 (vertical). -/
namespace GraphB

/-- `createNodesAndEdges` (second variant). -/
def createNodesAndEdges (sfx : List String) (versions : List VersionHistoryEntry) :
    List VersionGraphNode × List VersionGraphEdge :=
  let nodes := versions.map mkNode
  let mainLineNodes := nodes.filter (fun n => !n.isHotfix)
  let mainEdges := consecutiveEdges false (mainLineNodes.map (fun n => n.id))
  let baseEdges := (nodes.map (baseEdgeB nodes)).flatten
  let chainEdges := (nodes.map (chainEdgesOf sfx)).flatten
  (nodes, mainEdges ++ baseEdges ++ chainEdges)

/-- One iteration of the group-processing loop of `calculatePositions`
(second variant): sort the group by sequence, resolve its base by `version`
or `id` (`continue` on failure), and assign branch positions. -/
def groupStep (opts : LayoutOptions) (nodes : List VersionGraphNode)
    (p : Nat → Nat × Nat) (g : String × List Nat) : Nat → Nat × Nat :=
  let sorted := sortStableBy (groupKey opts.hotfixSuffixes nodes) g.2
  match findBase nodes g.1 with
  | none => p
  | some bi => assignBranchB opts.horizontalSpacing bi sorted 0 p

/-- The group-processing pass of `calculatePositions` (second variant). -/
def processGroups (opts : LayoutOptions) (nodes : List VersionGraphNode)
    (p1 : Nat → Nat × Nat) : Nat → Nat × Nat :=
  (hotfixGroups nodes).foldl (groupStep opts nodes) p1

/-- The orphan indices: hotfix nodes still at the `(0,0)` sentinel. -/
def orphanIdx (nodes : List VersionGraphNode) (p : Nat → Nat × Nat) : List Nat :=
  (List.range nodes.length).filter
    (fun i => (nodes.getD i default).isHotfix && ((p i).1 == 0 && (p i).2 == 0))

/-- `Math.max(...mainLineNodes.map(n => n.y), 0)`. -/
def maxMainY (nodes : List VersionGraphNode) (p : Nat → Nat × Nat) : Nat :=
  (mainIdx nodes).foldl (fun m i => max m (p i).2) 0

/-- `calculatePositions` (second variant), including the orphan fallback. -/
def calculatePositions (opts : LayoutOptions) (nodes : List VersionGraphNode) :
    Nat → Nat × Nat :=
  let p1 := assignSeq (fun j => (0, j * opts.verticalSpacing)) (mainIdx nodes) 0
    (fun _ => (0, 0))
  let p2 := processGroups opts nodes p1
  let maxY := maxMainY nodes p2
  assignSeq (fun j => (opts.horizontalSpacing, maxY + (j + 1) * opts.verticalSpacing))
    (orphanIdx nodes p2) 0 p2

/-- `calculateBounds` (second variant): horizontal padding 200, vertical 100. -/
def calculateBounds (nodes : List VersionGraphNode) : Nat × Nat :=
  if nodes.isEmpty then (0, 0)
  else
    let maxX := nodes.foldl (fun m n => max m n.x) 0
    let maxY := nodes.foldl (fun m n => max m n.y) 0
    (maxX + 200, maxY + 100)

/-- `buildGraph` (second variant). -/
def buildGraph (opts : LayoutOptions) (versions : List VersionHistoryEntry) : GraphLayout :=
  if versions.isEmpty then { nodes := [], edges := [], width := 0, height := 0 }
  else
    let enrichedVersions := enrichVersionsWithHotfixData versions opts.hotfixSuffixes
    let ne := createNodesAndEdges opts.hotfixSuffixes enrichedVersions
    let p := calculatePositions opts ne.1
    let nodes := positionNodes p ne.1
    let wh := calculateBounds nodes
    { nodes := nodes, edges := ne.2, width := wh.1, height := wh.2 }

end GraphB

/- The third variant of the layout file (vertical main line in reverse
order: `y = (totalReleases - index - 1) * verticalSpacing`), hotfixes
branching right, base resolution by tag via `nodeMap.get`, and no orphan
handling at all. -/
namespace GraphC

/-- `createNodesAndEdges` (third variant — identical to the first). -/
def createNodesAndEdges (sfx : List String) (versions : List VersionHistoryEntry) :
    List VersionGraphNode × List VersionGraphEdge :=
  GraphA.createNodesAndEdges sfx versions

/-- `calculatePositions` (third variant): reversed vertical main line, no
orphan pass. -/
def calculatePositions (opts : LayoutOptions) (nodes : List VersionGraphNode) :
    Nat → Nat × Nat :=
  let totalReleases := (mainIdx nodes).length
  let p1 := assignSeq (fun j => (0, (totalReleases - j - 1) * opts.verticalSpacing))
    (mainIdx nodes) 0 (fun _ => (0, 0))
  (hotfixGroups nodes).foldl (fun p g =>
    let sorted := sortStableBy (groupKey opts.hotfixSuffixes nodes) g.2
    match mget (nodeIdxMap nodes) g.1 with
    | none => p
    | some bi => assignBranchB opts.horizontalSpacing bi sorted 0 p) p1

/-- `buildGraph` (third variant; bounds as in the second variant). -/
def buildGraph (opts : LayoutOptions) (versions : List VersionHistoryEntry) : GraphLayout :=
  if versions.isEmpty then { nodes := [], edges := [], width := 0, height := 0 }
  else
    let enrichedVersions := enrichVersionsWithHotfixData versions opts.hotfixSuffixes
    let ne := createNodesAndEdges opts.hotfixSuffixes enrichedVersions
    let p := calculatePositions opts ne.1
    let nodes := positionNodes p ne.1
    let wh := GraphB.calculateBounds nodes
    { nodes := nodes, edges := ne.2, width := wh.1, height := wh.2 }

end GraphC

/-- The default suffix set. -/
def defaultSuffixes : List String := ["hotfix", "patch", "fix"]

/-- The four-entry example input of the specification (`v1.0.0`,
`v1.0.0-hotfix.1`, `v1.0.0-hotfix.2`, `v2.0.0`, in that order; tags equal to
versions; descriptive metadata is opaque to the algorithm and left empty). -/
def exampleEntries : List VersionHistoryEntry :=
  [{ version := "v1.0.0", tag := "v1.0.0" },
   { version := "v1.0.0-hotfix.1", tag := "v1.0.0-hotfix.1" },
   { version := "v1.0.0-hotfix.2", tag := "v1.0.0-hotfix.2" },
   { version := "v2.0.0", tag := "v2.0.0" }]

/-- An input containing a nested hotfix: the last entry's parsed base is
`v1.0.0-hotfix.1`, itself a hotfix entry. -/
def nestedEntries : List VersionHistoryEntry :=
  [{ version := "v1.0.0", tag := "v1.0.0" },
   { version := "v1.0.0-hotfix.1", tag := "v1.0.0-hotfix.1" },
   { version := "v1.0.0-hotfix.1-hotfix.2", tag := "v1.0.0-hotfix.1-hotfix.2" }]

/-- A two-entry nested-hotfix input: the second entry's parsed base equals
the first entry's version string, and the first entry is itself a hotfix. -/
def nestedPair : List VersionHistoryEntry :=
  [{ version := "v1.0.0-hotfix.1", tag := "v1.0.0-hotfix.1" },
   { version := "v1.0.0-hotfix.1-hotfix.2", tag := "v1.0.0-hotfix.1-hotfix.2" }]

/-- An input with distinct tags in which a hotfix entry's tag `"B"` equals
the parse-base of the other hotfix entries: the base edge `B → H` then
coincides with the sequence-chain edge `B → H`. -/
def dupEdgeEntries : List VersionHistoryEntry :=
  [{ version := "B-hotfix.1", tag := "B" },
   { version := "B", tag := "M" },
   { version := "B-hotfix.2", tag := "H" }]

/-- An input in which hotfix `H1` names as base the tag `"X"` of another
hotfix whose own position is assigned only after `H1`'s group is processed:
the stale read leaves `H1` at a primary coordinate different from its
resolved base's final one. -/
def staleBaseEntries : List VersionHistoryEntry :=
  [{ version := "X-hotfix.1", tag := "H1" },
   { version := "B-hotfix.1", tag := "X" },
   { version := "A", tag := "A" },
   { version := "B", tag := "B" }]

/-- A main-line release plus an orphaned hotfix (base `"nope"` unresolved). -/
def orphanEntries : List VersionHistoryEntry :=
  [{ version := "v1.0.0", tag := "v1.0.0" },
   { version := "nope-hotfix.1", tag := "nope-hotfix.1" }]

theorem stripPre_some : ∀ (p r t : List Char), stripPre p r = some t ↔ r = p ++ t
  | [], r, t => by simp [stripPre]
  | _ :: _, [], t => by simp [stripPre]
  | p :: ps, c :: cs, t => by
    simp only [stripPre, List.cons_append]
    by_cases h : p = c
    · subst h
      rw [if_pos rfl, stripPre_some ps cs t]
      constructor
      · intro h'; rw [h']
      · intro h'; exact (List.cons.injEq _ _ _ _ ▸ h').2
    · rw [if_neg h]
      constructor
      · intro h'; cases h'
      · intro h'
        exact absurd ((List.cons.injEq _ _ _ _ ▸ h').1.symm) h

theorem trySuffix_some {rest : List Char} {s s' : String} {n : Nat}
    (h : trySuffix rest s = some (s', n)) :
    s' = s ∧ ∃ ds, rest = s.data ++ '.' :: ds ∧ isDigits ds = true ∧ n = digitsToNat ds := by
  unfold trySuffix at h
  split at h
  next ds heq =>
    split at h
    next hd =>
      rw [Option.some.injEq, Prod.mk.injEq] at h
      exact ⟨h.1.symm, ds, (stripPre_some _ _ _).mp heq, hd, h.2.symm⟩
    next => cases h
  next => cases h

theorem trySuffix_of_split {s : String} {ds rest : List Char}
    (hr : rest = s.data ++ '.' :: ds) (hd : isDigits ds = true) :
    trySuffix rest s = some (s, digitsToNat ds) := by
  unfold trySuffix
  rw [(stripPre_some s.data rest ('.' :: ds)).mpr hr]
  simp [hd]

theorem matchSuffix_some : ∀ {rest : List Char} {sfx : List String} {s : String} {n : Nat},
    matchSuffix rest sfx = some (s, n) →
    s ∈ sfx ∧ ∃ ds, rest = s.data ++ '.' :: ds ∧ isDigits ds = true ∧ n = digitsToNat ds := by
  intro rest sfx
  induction sfx with
  | nil => intro s n h; cases h
  | cons s0 ss ih =>
    intro s n h
    unfold matchSuffix at h
    split at h
    next r heq =>
      rw [Option.some.injEq] at h
      subst h
      obtain ⟨rfl, hrest⟩ := trySuffix_some heq
      exact ⟨List.mem_cons_self _ _, hrest⟩
    next =>
      obtain ⟨hmem, hrest⟩ := ih h
      exact ⟨List.mem_cons_of_mem _ hmem, hrest⟩

theorem matchSuffix_isSome_of {rest : List Char} {sfx : List String} {s : String} {ds : List Char}
    (hs : s ∈ sfx) (hr : rest = s.data ++ '.' :: ds) (hd : isDigits ds = true) :
    (matchSuffix rest sfx).isSome = true := by
  induction sfx with
  | nil => cases hs
  | cons s0 ss ih =>
    unfold matchSuffix
    rcases List.mem_cons.mp hs with rfl | hmem
    · rw [trySuffix_of_split hr hd]; rfl
    · split
      · rfl
      · exact ih hmem

theorem findSplit_sound : ∀ (cs : List Char) (sfx : List String) (b : List Char) (s : String)
    (n : Nat), findSplit cs sfx = some (b, s, n) →
    s ∈ sfx ∧ ∃ ds, cs = b ++ '-' :: (s.data ++ '.' :: ds) ∧ isDigits ds = true ∧
      n = digitsToNat ds
  | [], _, b, s, n => by intro h; cases h
  | c :: rest, sfx, b, s, n => by
    simp only [findSplit]
    split
    next b0 s0 n0 heq =>
      intro h
      rw [Option.some.injEq, Prod.mk.injEq, Prod.mk.injEq] at h
      obtain ⟨h1, h2, h3⟩ := h
      subst h1; subst h2; subst h3
      obtain ⟨hmem, ds, hrest, hd, hn⟩ := findSplit_sound rest sfx b0 s0 n0 heq
      exact ⟨hmem, ds, by rw [List.cons_append, hrest], hd, hn⟩
    next =>
      split
      next hc =>
        subst hc
        split
        next s1 n1 heq2 =>
          intro h
          rw [Option.some.injEq, Prod.mk.injEq, Prod.mk.injEq] at h
          obtain ⟨h1, h2, h3⟩ := h
          subst h1; subst h2; subst h3
          obtain ⟨hmem, ds, hrest, hd, hn⟩ := matchSuffix_some heq2
          exact ⟨hmem, ds, by rw [hrest]; rfl, hd, hn⟩
        next => intro h; cases h
      next => intro h; cases h

theorem findSplit_isSome_of : ∀ (b cs : List Char) (sfx : List String) (s : String)
    (ds : List Char), cs = b ++ '-' :: (s.data ++ '.' :: ds) → s ∈ sfx → isDigits ds = true →
    (findSplit cs sfx).isSome = true
  | [], cs, sfx, s, ds => by
    intro hcs hs hd
    subst hcs
    rw [List.nil_append]
    show (findSplit ('-' :: (s.data ++ '.' :: ds)) sfx).isSome = true
    simp only [findSplit]
    split
    · rfl
    next heq =>
      rw [if_pos trivial]
      obtain ⟨⟨s1, n1⟩, h1⟩ := Option.isSome_iff_exists.mp (matchSuffix_isSome_of hs rfl hd)
      rw [h1]
      rfl
  | cb :: b', cs, sfx, s, ds => by
    intro hcs hs hd
    subst hcs
    rw [List.cons_append]
    show (findSplit (cb :: (b' ++ '-' :: (s.data ++ '.' :: ds))) sfx).isSome = true
    have IH := findSplit_isSome_of b' (b' ++ '-' :: (s.data ++ '.' :: ds)) sfx s ds rfl hs hd
    simp only [findSplit]
    split
    · rfl
    next heq =>
      have heq' : findSplit (b' ++ '-' :: (s.data ++ '.' :: ds)) sfx = none := heq
      rw [heq'] at IH; cases IH

theorem findSplit_longest : ∀ (cs : List Char) (sfx : List String) (b : List Char) (s : String)
    (n : Nat), findSplit cs sfx = some (b, s, n) →
    ∀ (b' : List Char) (s' : String) (ds' : List Char),
      cs = b' ++ '-' :: (s'.data ++ '.' :: ds') → s' ∈ sfx → isDigits ds' = true →
      b'.length ≤ b.length
  | [], _, b, s, n => by intro h; cases h
  | c :: rest, sfx, b, s, n => by
    simp only [findSplit]
    split
    next b0 s0 n0 heq =>
      intro h b' s' ds' hcs hs' hd'
      rw [Option.some.injEq, Prod.mk.injEq, Prod.mk.injEq] at h
      obtain ⟨h1, h2, h3⟩ := h
      subst h1
      match b', hcs with
      | [], _ => simp
      | cb' :: b1, hcs =>
        have hrest : rest = b1 ++ '-' :: (s'.data ++ '.' :: ds') := by
          rw [List.cons_append] at hcs
          exact (List.cons.injEq _ _ _ _ ▸ hcs).2
        have := findSplit_longest rest sfx b0 s0 n0 heq b1 s' ds' hrest hs' hd'
        simpa using Nat.succ_le_succ this
    next heq =>
      split
      next hc =>
        split
        next s1 n1 heq2 =>
          intro h b' s' ds' hcs hs' hd'
          rw [Option.some.injEq, Prod.mk.injEq, Prod.mk.injEq] at h
          obtain ⟨h1, h2, h3⟩ := h
          subst h1
          match b', hcs with
          | [], _ => simp
          | cb' :: b1, hcs =>
            have hrest : rest = b1 ++ '-' :: (s'.data ++ '.' :: ds') := by
              rw [List.cons_append] at hcs
              exact (List.cons.injEq _ _ _ _ ▸ hcs).2
            have hsome := findSplit_isSome_of b1 rest sfx s' ds' hrest hs' hd'
            rw [heq] at hsome; cases hsome
        next => intro h; cases h
      next => intro h; cases h

theorem parseHotfixVersion_true_iff (v : String) (sfx : List String) :
    (parseHotfixVersion v sfx).isHotfix = true ↔ ∃ b s d, IsHotfixSplit v.data sfx b s d := by
  unfold parseHotfixVersion
  split
  next heq =>
    constructor
    · intro h; cases h
    · rintro ⟨b, s, d, hv, hb, _, _⟩
      rw [heq] at hv
      match b, hb, hv with
      | cb :: b1, _, hv => cases hv
  next c rest heq =>
    split
    next b0 s0 n0 heq2 =>
      simp only [true_iff]
      obtain ⟨hmem, ds, hrest, hd, _⟩ := findSplit_sound rest sfx b0 s0 n0 heq2
      exact ⟨c :: b0, s0, ds, by rw [heq, hrest]; rfl, by simp, hmem, hd⟩
    next heq2 =>
      constructor
      · intro h; cases h
      · rintro ⟨b, s, d, hv, hb, hs, hd⟩
        rw [heq] at hv
        match b, hb, hv with
        | cb :: b1, _, hv =>
          have hrest : rest = b1 ++ '-' :: (s.data ++ '.' :: d) := by
            rw [List.cons_append] at hv
            exact (List.cons.injEq _ _ _ _ ▸ hv).2
          have hsome := findSplit_isSome_of b1 rest sfx s d hrest hs hd
          rw [heq2] at hsome; cases hsome

theorem parseHotfixVersion_true_spec (v : String) (sfx : List String) :
    (parseHotfixVersion v sfx).isHotfix = true →
    ∃ b s d, IsHotfixSplit v.data sfx b s d ∧
      parseHotfixVersion v sfx =
        { isHotfix := true, baseVersion := some (String.mk b),
          suffix := some s, sequence := some (digitsToNat d) } ∧
      ∀ b' s' d', IsHotfixSplit v.data sfx b' s' d' → b'.length ≤ b.length := by
  unfold parseHotfixVersion
  split
  next => intro h; cases h
  next c rest heq =>
    split
    next b0 s0 n0 heq2 =>
      intro _
      obtain ⟨hmem, ds, hrest, hd, hn⟩ := findSplit_sound rest sfx b0 s0 n0 heq2
      refine ⟨c :: b0, s0, ds, ⟨by rw [heq, hrest]; rfl, by simp, hmem, hd⟩, by rw [hn], ?_⟩
      rintro b' s' d' ⟨hv, hb', hs', hd'⟩
      rw [heq] at hv
      match b', hb', hv with
      | cb' :: b1, _, hv =>
        have hrest' : rest = b1 ++ '-' :: (s'.data ++ '.' :: d') := by
          rw [List.cons_append] at hv
          exact (List.cons.injEq _ _ _ _ ▸ hv).2
        have := findSplit_longest rest sfx b0 s0 n0 heq2 b1 s' d' hrest' hs' hd'
        simpa using Nat.succ_le_succ this
    next => intro h; cases h

theorem parseHotfixVersion_false_shape (v : String) (sfx : List String) :
    (parseHotfixVersion v sfx).isHotfix = false →
    parseHotfixVersion v sfx = { isHotfix := false } := by
  unfold parseHotfixVersion
  split
  next => intro _; rfl
  next c rest heq =>
    split
    next => intro h; cases h
    next => intro _; rfl

/-- C1: for every version string and recognized suffix set, `parse` returns
`isHotfix = true` with `baseVersion`, `suffix` and `sequence` exactly when the
string matches the anchored pattern `^(.+)-(suffix)\.(\d+)$` for some suffix in
the set; the returned `baseVersion` is the longest (greedy) prefix before the
last qualifying suffix marker and `sequence` is the digits parsed as a
non-negative integer; a non-matching string yields `isHotfix = false` and no
other fields; and `parse("v1.0.0-hotfix.1", {hotfix,patch,fix})` is
`{isHotfix: true, baseVersion: "v1.0.0", suffix: "hotfix", sequence: 1}`. -/
theorem c1_parse_matches_anchored_pattern :
    (∀ (v : String) (sfx : List String),
      (parseHotfixVersion v sfx).isHotfix = true ↔ ∃ b s d, IsHotfixSplit v.data sfx b s d)
    ∧ (∀ (v : String) (sfx : List String), (parseHotfixVersion v sfx).isHotfix = true →
        ∃ b s d, IsHotfixSplit v.data sfx b s d ∧
          parseHotfixVersion v sfx =
            { isHotfix := true, baseVersion := some (String.mk b),
              suffix := some s, sequence := some (digitsToNat d) } ∧
          ∀ b' s' d', IsHotfixSplit v.data sfx b' s' d' → b'.length ≤ b.length)
    ∧ (∀ (v : String) (sfx : List String), (parseHotfixVersion v sfx).isHotfix = false →
        parseHotfixVersion v sfx = { isHotfix := false })
    ∧ parseHotfixVersion "v1.0.0-hotfix.1" ["hotfix", "patch", "fix"] =
        { isHotfix := true, baseVersion := some "v1.0.0", suffix := some "hotfix",
          sequence := some 1 } :=
  ⟨parseHotfixVersion_true_iff, parseHotfixVersion_true_spec,
    parseHotfixVersion_false_shape, by rfl⟩

/-- Witness for C1 at the concrete input `"v1.0.0-hotfix.1"`. -/
theorem c1_parse_matches_anchored_pattern_witness :
    ∃ b s d, IsHotfixSplit ("v1.0.0-hotfix.1" : String).data ["hotfix", "patch", "fix"] b s d :=
  (c1_parse_matches_anchored_pattern.1 "v1.0.0-hotfix.1" ["hotfix", "patch", "fix"]).mp (by rfl)

/-- C8: the specification requires `parse` to be a pure TOTAL function —
never throwing, with a non-match being a valid `isHotfix = false` outcome —
for every caller-supplied suffix set.  The source does not meet this: it
splices the caller-supplied suffixes unescaped into
`new RegExp("^(.+)-(" + suffixes.join("|") + ")\\.(\\d+)$")`, and the
suffixes come straight from the user-configurable `forge.hotfixSuffixes`
setting with no validation, so a regex-invalid suffix such as `"("` produces
the unterminated pattern `^(.+)-(()\.(\d+)$` and `parse` throws a
`SyntaxError` before any matching happens.  The theorem below documents the
divergence at that failing input: the model — which treats the suffixes as
the literal strings the specification's matching rule describes, i.e. the
escaped-regex behaviour the code intends — returns the specified non-match
outcome at `parse("v1.0.0-hotfix.1", ["("])`, and in the model the result is
always one of the two legal shapes (bare non-match or fully-populated hotfix
record), which is the totality the specification demands of the program. -/
theorem c8_regex_throw_failing_input :
    parseHotfixVersion "v1.0.0-hotfix.1" ["("] = { isHotfix := false } ∧
    ∀ (v : String) (sfx : List String),
      parseHotfixVersion v sfx = { isHotfix := false } ∨
      ∃ b s n, parseHotfixVersion v sfx =
        { isHotfix := true, baseVersion := some b,
          suffix := some s, sequence := some n } := by
  refine ⟨rfl, ?_⟩
  intro v sfx
  cases h : (parseHotfixVersion v sfx).isHotfix with
  | false => exact Or.inl (parseHotfixVersion_false_shape v sfx h)
  | true =>
    obtain ⟨b, s, d, _, heq, _⟩ := parseHotfixVersion_true_spec v sfx h
    exact Or.inr ⟨String.mk b, s, digitsToNat d, heq⟩

theorem mget_mset {α : Type} : ∀ (m : List (String × α)) (k k' : String) (v : α),
    mget (mset m k v) k' = if k' = k then some v else mget m k'
  | [], k, k', v => by
    simp only [mset, mget]
    by_cases h : k = k'
    · rw [if_pos h, if_pos h.symm]
    · rw [if_neg h, if_neg (fun h' : k' = k => h h'.symm)]
  | (k0, w) :: rest, k, k', v => by
    simp only [mset]
    by_cases h : k0 = k
    · subst h
      rw [if_pos rfl]
      simp only [mget]
      by_cases h' : k0 = k'
      · subst h'
        rw [if_pos rfl, if_pos rfl]
      · rw [if_neg h', if_neg (fun he : k' = k0 => h' he.symm), if_neg h']
    · rw [if_neg h]
      simp only [mget]
      rw [mget_mset rest k k' v]
      by_cases h1 : k0 = k'
      · subst h1
        by_cases h2 : k0 = k
        · exact absurd h2 h
        · simp [h2]
      · by_cases h2 : k' = k
        · simp [h1, h2, h]
        · simp [h1, h2]

theorem foldl_mset_buckets {α β : Type}
    (step : List (String × List β) → α → List (String × List β))
    (keyOpt : α → Option String) (val : α → β)
    (hstep : ∀ acc x, step acc x =
      match keyOpt x with
      | some kk => mset acc kk ((mget acc kk).getD [] ++ [val x])
      | none => acc) :
    ∀ (l : List α) (acc : List (String × List β)) (k : String),
      (mget (l.foldl step acc) k).getD [] =
      (mget acc k).getD [] ++ (l.filter (fun x => keyOpt x == some k)).map val
  | [], acc, k => by simp
  | x :: l, acc, k => by
    rw [List.foldl_cons, hstep]
    cases hko : keyOpt x with
    | none =>
      rw [foldl_mset_buckets step keyOpt val hstep l acc k]
      simp [List.filter_cons, hko]
    | some kk =>
      rw [foldl_mset_buckets step keyOpt val hstep l _ k, mget_mset]
      by_cases hk : k = kk
      · subst hk
        simp [List.filter_cons, hko, List.append_assoc]
      · have hne : ¬ (keyOpt x == some k) = true := by
          simp [hko]
          exact fun he => hk he.symm
        simp [List.filter_cons, hne, if_neg hk]

theorem insortBy_perm {α : Type} (key : α → Nat) (x : α) :
    ∀ l : List α, (insortBy key x l).Perm (x :: l)
  | [] => List.Perm.refl _
  | y :: ys => by
    unfold insortBy
    split
    · exact List.Perm.refl _
    · exact ((insortBy_perm key x ys).cons y).trans (List.Perm.swap x y ys)

theorem sortStableBy_perm {α : Type} (key : α → Nat) :
    ∀ l : List α, (sortStableBy key l).Perm l
  | [] => List.Perm.refl _
  | x :: xs => (insortBy_perm key x _).trans ((sortStableBy_perm key xs).cons x)

theorem insortBy_sorted {α : Type} (key : α → Nat) (x : α) :
    ∀ {l : List α}, List.Pairwise (fun a b => key a ≤ key b) l →
      List.Pairwise (fun a b => key a ≤ key b) (insortBy key x l)
  | [], _ => by simp [insortBy]
  | y :: ys, h => by
    unfold insortBy
    split
    next hle =>
      rw [List.pairwise_cons]
      refine ⟨?_, h⟩
      intro b hb
      rcases List.mem_cons.mp hb with rfl | hmem
      · exact hle
      · exact le_trans hle ((List.pairwise_cons.mp h).1 b hmem)
    next hgt =>
      rw [List.pairwise_cons]
      constructor
      · intro b hb
        have hb' : b ∈ x :: ys := (insortBy_perm key x ys).mem_iff.mp hb
        rcases List.mem_cons.mp hb' with rfl | hmem
        · exact Nat.le_of_not_le hgt
        · exact (List.pairwise_cons.mp h).1 b hmem
      · exact insortBy_sorted key x (List.pairwise_cons.mp h).2

theorem sortStableBy_sorted {α : Type} (key : α → Nat) :
    ∀ l : List α, List.Pairwise (fun a b => key a ≤ key b) (sortStableBy key l)
  | [] => List.Pairwise.nil
  | x :: xs => insortBy_sorted key x (sortStableBy_sorted key xs)

theorem consecutiveEdges_mem {iso : Bool} :
    ∀ {l : List String} {e : VersionGraphEdge}, e ∈ consecutiveEdges iso l →
      e.from_ ∈ l ∧ e.to_ ∈ l ∧ e.isHotfix = iso
  | [], e => by intro h; cases h
  | [_], e => by intro h; cases h
  | a :: b :: rest, e => by
    intro h
    rcases List.mem_cons.mp h with rfl | hmem
    · exact ⟨List.mem_cons_self _ _, List.mem_cons_of_mem _ (List.mem_cons_self _ _), rfl⟩
    · obtain ⟨h1, h2, h3⟩ := consecutiveEdges_mem hmem
      exact ⟨List.mem_cons_of_mem _ h1, List.mem_cons_of_mem _ h2, h3⟩

theorem consecutiveEdges_nodup {iso : Bool} :
    ∀ {l : List String}, l.Nodup → (consecutiveEdges iso l).Nodup
  | [], _ => List.Pairwise.nil
  | [_], _ => List.Pairwise.nil
  | a :: b :: rest, h => by
    rw [show consecutiveEdges iso (a :: b :: rest) =
      { from_ := a, to_ := b, isHotfix := iso } :: consecutiveEdges iso (b :: rest) from rfl]
    rw [List.nodup_cons]
    constructor
    · intro hmem
      have := (consecutiveEdges_mem hmem).1
      exact (List.nodup_cons.mp h).1 this
    · exact consecutiveEdges_nodup (List.nodup_cons.mp h).2

theorem flatten_nodup_of_pairwise {α β : Type} (f : α → List β) :
    ∀ (l : List α), (∀ x ∈ l, (f x).Nodup) →
      List.Pairwise (fun x y => ∀ e, e ∈ f x → e ∉ f y) l →
      ((l.map f).flatten).Nodup
  | [], _, _ => List.Pairwise.nil
  | x :: l, hnd, hpw => by
    rw [List.map_cons, List.flatten_cons, List.nodup_append]
    refine ⟨hnd x (List.mem_cons_self _ _), ?_, ?_⟩
    · exact flatten_nodup_of_pairwise f l
        (fun y hy => hnd y (List.mem_cons_of_mem _ hy)) (List.pairwise_cons.mp hpw).2
    · intro e he hmem
      obtain ⟨lst, hlst, helst⟩ := List.mem_flatten.mp hmem
      obtain ⟨y, hy, rfl⟩ := List.mem_map.mp hlst
      exact (List.pairwise_cons.mp hpw).1 y hy e he helst

theorem foldl_max_init (f : Nat → Nat) :
    ∀ (l : List Nat) (acc : Nat), acc ≤ l.foldl (fun m i => max m (f i)) acc
  | [], acc => Nat.le_refl acc
  | x :: l, acc =>
    Nat.le_trans (Nat.le_max_left acc (f x)) (foldl_max_init f l (max acc (f x)))

theorem le_foldl_max (f : Nat → Nat) :
    ∀ (l : List Nat) (acc i : Nat), i ∈ l → f i ≤ l.foldl (fun m i => max m (f i)) acc
  | [], _, i, h => absurd h (List.not_mem_nil i)
  | x :: l, acc, i, h => by
    rcases List.mem_cons.mp h with rfl | hmem
    · exact Nat.le_trans (Nat.le_max_right acc (f i)) (foldl_max_init f l _)
    · exact le_foldl_max f l _ i hmem

theorem foldl_max_congr (f g : Nat → Nat) :
    ∀ (l : List Nat) (acc : Nat), (∀ i ∈ l, f i = g i) →
      l.foldl (fun m i => max m (f i)) acc = l.foldl (fun m i => max m (g i)) acc
  | [], _, _ => rfl
  | x :: l, acc, h => by
    rw [List.foldl_cons, List.foldl_cons, h x (List.mem_cons_self _ _)]
    exact foldl_max_congr f g l _ (fun i hi => h i (List.mem_cons_of_mem _ hi))

theorem assignSeq_not_mem (f : Nat → Nat × Nat) :
    ∀ (l : List Nat) (j : Nat) (p : Nat → Nat × Nat) (i : Nat), i ∉ l →
      assignSeq f l j p i = p i
  | [], _, _, _, _ => rfl
  | a :: l, j, p, i, h => by
    rw [show assignSeq f (a :: l) j p = assignSeq f l (j + 1) (updPos p a (f j)) from rfl,
      assignSeq_not_mem f l (j + 1) _ i (fun hm => h (List.mem_cons_of_mem _ hm))]
    exact if_neg (fun he : i = a => h (he ▸ List.mem_cons_self a l))

theorem assignSeq_get (f : Nat → Nat × Nat) :
    ∀ (l : List Nat) (j0 : Nat) (p : Nat → Nat × Nat) (j : Nat) (hj : j < l.length),
      l.Nodup → assignSeq f l j0 p (l.get ⟨j, hj⟩) = f (j0 + j)
  | [], _, _, j, hj => by cases hj
  | a :: l, j0, p, 0, hj => by
    intro hnd
    rw [show (a :: l).get ⟨0, hj⟩ = a from rfl,
      show assignSeq f (a :: l) j0 p = assignSeq f l (j0 + 1) (updPos p a (f j0)) from rfl,
      assignSeq_not_mem f l (j0 + 1) _ a (List.nodup_cons.mp hnd).1]
    simp [updPos]
  | a :: l, j0, p, j + 1, hj => by
    intro hnd
    rw [show (a :: l).get ⟨j + 1, hj⟩ = l.get ⟨j, Nat.lt_of_succ_lt_succ hj⟩ from rfl,
      show assignSeq f (a :: l) j0 p = assignSeq f l (j0 + 1) (updPos p a (f j0)) from rfl,
      assignSeq_get f l (j0 + 1) _ j _ (List.nodup_cons.mp hnd).2]
    congr 1
    omega

theorem assignBranchB_not_mem (hs bi : Nat) :
    ∀ (l : List Nat) (j : Nat) (p : Nat → Nat × Nat) (i : Nat), i ∉ l →
      assignBranchB hs bi l j p i = p i
  | [], _, _, _, _ => rfl
  | a :: l, j, p, i, h => by
    rw [show assignBranchB hs bi (a :: l) j p =
      assignBranchB hs bi l (j + 1) (updPos p a ((j + 1) * hs, (p bi).2)) from rfl,
      assignBranchB_not_mem hs bi l (j + 1) _ i (fun hm => h (List.mem_cons_of_mem _ hm))]
    exact if_neg (fun he : i = a => h (he ▸ List.mem_cons_self a l))

theorem assignBranchB_get (hs bi : Nat) :
    ∀ (l : List Nat) (j0 : Nat) (p : Nat → Nat × Nat) (j : Nat) (hj : j < l.length),
      l.Nodup → bi ∉ l →
      assignBranchB hs bi l j0 p (l.get ⟨j, hj⟩) = ((j0 + j + 1) * hs, (p bi).2)
  | [], _, _, j, hj => by cases hj
  | a :: l, j0, p, 0, hj => by
    intro hnd hbi
    rw [show (a :: l).get ⟨0, hj⟩ = a from rfl,
      show assignBranchB hs bi (a :: l) j0 p =
        assignBranchB hs bi l (j0 + 1) (updPos p a ((j0 + 1) * hs, (p bi).2)) from rfl,
      assignBranchB_not_mem hs bi l (j0 + 1) _ a (List.nodup_cons.mp hnd).1]
    simp [updPos]
  | a :: l, j0, p, j + 1, hj => by
    intro hnd hbi
    have hbia : bi ≠ a := fun he => hbi (he ▸ List.mem_cons_self a l)
    rw [show (a :: l).get ⟨j + 1, hj⟩ = l.get ⟨j, Nat.lt_of_succ_lt_succ hj⟩ from rfl,
      show assignBranchB hs bi (a :: l) j0 p =
        assignBranchB hs bi l (j0 + 1) (updPos p a ((j0 + 1) * hs, (p bi).2)) from rfl,
      assignBranchB_get hs bi l (j0 + 1) _ j _ (List.nodup_cons.mp hnd).2
        (fun hm => hbi (List.mem_cons_of_mem _ hm))]
    rw [show (updPos p a ((j0 + 1) * hs, (p bi).2)) bi = p bi from if_neg hbia]
    congr 2
    omega

theorem getD_get {α : Type} [Inhabited α] :
    ∀ (l : List α) (n : Nat) (h : n < l.length), l.getD n default = l.get ⟨n, h⟩
  | _ :: _, 0, _ => rfl
  | _ :: l, n + 1, h => getD_get l n (Nat.lt_of_succ_lt_succ h)

theorem mget_map_snd {α β : Type} (g : α → β) :
    ∀ (m : List (String × α)) (k : String),
      mget (m.map (fun p => (p.1, g p.2))) k = (mget m k).map g
  | [], _ => rfl
  | (k0, v) :: rest, k => by
    simp only [List.map_cons, mget]
    by_cases h : k0 = k
    · simp [h]
    · simp [h, mget_map_snd g rest k]

theorem childKey_eq_some {sfx : List String} {v : VersionHistoryEntry} {k : String} :
    childKey sfx v = some k ↔ (parseHotfixVersion v.version sfx).isHotfix = true ∧
      truthyBaseTag (parseHotfixVersion v.version sfx).baseVersion = some k := by
  unfold childKey truthyBaseTag
  cases h1 : (parseHotfixVersion v.version sfx).isHotfix <;>
    cases h2 : (parseHotfixVersion v.version sfx).baseVersion <;> simp [h1, h2]

theorem groupKeyOpt_eq_some {pr : Nat × VersionGraphNode} {k : String} :
    groupKeyOpt pr = some k ↔ pr.2.isHotfix = true ∧ truthyBaseTag pr.2.baseTag = some k := by
  unfold groupKeyOpt
  cases h1 : pr.2.isHotfix <;> cases h2 : truthyBaseTag pr.2.baseTag <;> simp [h1, h2]

theorem map_getD_nil {α β : Type} (g : List α → List β) (hg : g [] = [])
    (o : Option (List α)) : (o.map g).getD [] = g (o.getD []) := by
  cases o <;> simp [hg]

theorem bucket_spec (versions : List VersionHistoryEntry) (sfx : List String) (k : String) :
    (mget (buildHotfixRelationships versions sfx) k).getD [] =
    sortStableBy (seqKey sfx)
      ((versions.filter (fun v => childKey sfx v == some k)).map (fun v => v.tag)) := by
  have hstep : ∀ (acc : List (String × List String)) (x : VersionHistoryEntry),
      (fun rel version =>
        let info := parseHotfixVersion version.version sfx
        match info.isHotfix, info.baseVersion with
        | true, some base =>
          if base = "" then rel
          else mset rel base ((mget rel base).getD [] ++ [version.tag])
        | _, _ => rel) acc x =
      match childKey sfx x with
      | some kk => mset acc kk ((mget acc kk).getD [] ++ [x.tag])
      | none => acc := by
    intro acc x
    unfold childKey
    cases h1 : (parseHotfixVersion x.version sfx).isHotfix <;>
      cases h2 : (parseHotfixVersion x.version sfx).baseVersion <;> simp [h1, h2]
    rename_i base
    by_cases hb : base = "" <;> simp [hb]
  simp only [buildHotfixRelationships]
  rw [mget_map_snd, map_getD_nil _ rfl,
    foldl_mset_buckets _ (childKey sfx) (fun v => v.tag) hstep versions [] k]
  rfl

theorem mem_bucket {versions : List VersionHistoryEntry} {sfx : List String}
    {k t : String} :
    t ∈ (mget (buildHotfixRelationships versions sfx) k).getD [] ↔
    ∃ v, v ∈ versions ∧ childKey sfx v = some k ∧ v.tag = t := by
  rw [bucket_spec, (sortStableBy_perm _ _).mem_iff]
  simp [List.mem_filter, and_assoc]

theorem bucket_nodup (versions : List VersionHistoryEntry) (sfx : List String) (k : String)
    (hnd : (versions.map (fun v => v.tag)).Nodup) :
    ((mget (buildHotfixRelationships versions sfx) k).getD []).Nodup := by
  rw [bucket_spec]
  refine ((sortStableBy_perm _ _).nodup_iff).mpr ?_
  exact hnd.sublist ((List.filter_sublist _).map _)

theorem group_spec (nodes : List VersionGraphNode) (k : String) :
    (mget (hotfixGroups nodes) k).getD [] =
    (nodes.enum.filter (fun pr => groupKeyOpt pr == some k)).map (fun pr => pr.1) := by
  have hstep : ∀ (acc : List (String × List Nat)) (pr : Nat × VersionGraphNode),
      (fun g pr =>
        match pr.2.isHotfix, truthyBaseTag pr.2.baseTag with
        | true, some b => mset g b ((mget g b).getD [] ++ [pr.1])
        | _, _ => g) acc pr =
      match groupKeyOpt pr with
      | some kk => mset acc kk ((mget acc kk).getD [] ++ [pr.1])
      | none => acc := by
    intro acc pr
    unfold groupKeyOpt
    cases h1 : pr.2.isHotfix <;> cases h2 : truthyBaseTag pr.2.baseTag <;> simp [h1, h2]
  simp only [hotfixGroups]
  rw [foldl_mset_buckets _ groupKeyOpt (fun pr => pr.1) hstep nodes.enum [] k]
  rfl

theorem mem_group {nodes : List VersionGraphNode} {k : String} {i : Nat} :
    i ∈ (mget (hotfixGroups nodes) k).getD [] ↔
    ∃ h : i < nodes.length, (nodes.get ⟨i, h⟩).isHotfix = true ∧
      truthyBaseTag (nodes.get ⟨i, h⟩).baseTag = some k := by
  rw [group_spec]
  constructor
  · intro hmem
    obtain ⟨pr, hpr, hfst⟩ := List.mem_map.mp hmem
    obtain ⟨hen, hkey⟩ := List.mem_filter.mp hpr
    have hget := List.mem_enum_iff_get?.mp hen
    obtain ⟨h, hg⟩ := List.get?_eq_some.mp hget
    have hko : groupKeyOpt pr = some k := by
      have hkey' := hkey
      simp only [beq_iff_eq] at hkey'
      exact hkey'
    obtain ⟨hh, hb⟩ := groupKeyOpt_eq_some.mp hko
    subst hfst
    exact ⟨h, by rw [hg]; exact hh, by rw [hg]; exact hb⟩
  · rintro ⟨h, hh, hb⟩
    refine List.mem_map.mpr ⟨(i, nodes.get ⟨i, h⟩), List.mem_filter.mpr ⟨?_, ?_⟩, rfl⟩
    · exact List.mem_enum_iff_get?.mpr (by simp [List.get?_eq_get h])
    · simpa using groupKeyOpt_eq_some.mpr ⟨hh, hb⟩

theorem group_nodup (nodes : List VersionGraphNode) (k : String) :
    ((mget (hotfixGroups nodes) k).getD []).Nodup := by
  rw [group_spec]
  have h2 : (nodes.enum.map (fun pr => pr.1)).Nodup := by
    have : nodes.enum.map (fun pr => pr.1) = List.range nodes.length := by
      simpa using List.enum_map_fst nodes
    rw [this]
    exact List.nodup_range _
  exact h2.sublist ((List.filter_sublist _).map _)

theorem keys_mset_mem {α : Type} : ∀ (m : List (String × α)) (k : String) (v : α)
    (k' : String), k' ∈ (mset m k v).map (fun p => p.1) →
    k' ∈ m.map (fun p => p.1) ∨ k' = k
  | [], k, v, k' => by
    intro h
    simp [mset] at h
    exact Or.inr h
  | (k0, w) :: rest, k, v, k' => by
    intro h
    simp only [mset] at h
    by_cases hk : k0 = k
    · rw [if_pos hk] at h
      simp only [List.map_cons, List.mem_cons] at h ⊢
      rcases h with rfl | h
      · exact Or.inl (Or.inl rfl)
      · exact Or.inl (Or.inr h)
    · rw [if_neg hk] at h
      simp only [List.map_cons, List.mem_cons] at h ⊢
      rcases h with rfl | h
      · exact Or.inl (Or.inl rfl)
      · rcases keys_mset_mem rest k v k' h with h' | h'
        · exact Or.inl (Or.inr h')
        · exact Or.inr h'

theorem keys_nodup_mset {α : Type} : ∀ (m : List (String × α)) (k : String) (v : α),
    (m.map (fun p => p.1)).Nodup → ((mset m k v).map (fun p => p.1)).Nodup
  | [], k, v, _ => by simp [mset]
  | (k0, w) :: rest, k, v, h => by
    simp only [mset]
    by_cases hk : k0 = k
    · rw [if_pos hk]
      simpa using h
    · rw [if_neg hk]
      simp only [List.map_cons, List.nodup_cons] at h ⊢
      refine ⟨?_, keys_nodup_mset rest k v h.2⟩
      intro hmem
      rcases keys_mset_mem rest k v k0 hmem with h' | h'
      · exact h.1 h'
      · exact hk h'

theorem keys_nodup_foldl_buckets {α β : Type}
    (step : List (String × List β) → α → List (String × List β))
    (keyOpt : α → Option String) (val : α → β)
    (hstep : ∀ acc x, step acc x =
      match keyOpt x with
      | some kk => mset acc kk ((mget acc kk).getD [] ++ [val x])
      | none => acc) :
    ∀ (l : List α) (acc : List (String × List β)),
      (acc.map (fun p => p.1)).Nodup → ((l.foldl step acc).map (fun p => p.1)).Nodup
  | [], _, h => h
  | x :: l, acc, h => by
    rw [List.foldl_cons, hstep]
    cases hko : keyOpt x with
    | none => exact keys_nodup_foldl_buckets step keyOpt val hstep l acc h
    | some kk =>
      exact keys_nodup_foldl_buckets step keyOpt val hstep l _ (keys_nodup_mset _ _ _ h)

theorem hotfixGroups_step_eq : ∀ (acc : List (String × List Nat))
    (pr : Nat × VersionGraphNode),
    (fun g (pr : Nat × VersionGraphNode) =>
      match pr.2.isHotfix, truthyBaseTag pr.2.baseTag with
      | true, some b => mset g b ((mget g b).getD [] ++ [pr.1])
      | _, _ => g) acc pr =
    match groupKeyOpt pr with
    | some kk => mset acc kk ((mget acc kk).getD [] ++ [pr.1])
    | none => acc := by
  intro acc pr
  unfold groupKeyOpt
  cases h1 : pr.2.isHotfix <;> cases h2 : truthyBaseTag pr.2.baseTag <;> simp [h1, h2]

theorem hotfixGroups_keys_nodup (nodes : List VersionGraphNode) :
    ((hotfixGroups nodes).map (fun p => p.1)).Nodup := by
  simp only [hotfixGroups]
  exact keys_nodup_foldl_buckets _ groupKeyOpt (fun pr => pr.1) hotfixGroups_step_eq
    nodes.enum [] List.Pairwise.nil

theorem mget_eq_some_of_mem {α : Type} : ∀ (m : List (String × α)) (k : String) (v : α),
    (m.map (fun p => p.1)).Nodup → (k, v) ∈ m → mget m k = some v
  | [], _, _, _, h => absurd h (List.not_mem_nil _)
  | (k0, w) :: rest, k, v, hnd, hmem => by
    simp only [mget]
    rcases List.mem_cons.mp hmem with heq | hmem'
    · rw [Prod.mk.injEq] at heq
      obtain ⟨rfl, rfl⟩ := heq
      rw [if_pos rfl]
    · by_cases hk : k0 = k
      · subst hk
        exfalso
        have hkmem : k0 ∈ rest.map (fun p => p.1) := List.mem_map.mpr ⟨(k0, v), hmem', rfl⟩
        simp only [List.map_cons, List.nodup_cons] at hnd
        exact hnd.1 hkmem
      · rw [if_neg hk]
        simp only [List.map_cons, List.nodup_cons] at hnd
        exact mget_eq_some_of_mem rest k v hnd.2 hmem'

theorem mem_hotfixGroups_mget (nodes : List VersionGraphNode) {k : String} {mem : List Nat}
    (h : (k, mem) ∈ hotfixGroups nodes) : mget (hotfixGroups nodes) k = some mem :=
  mget_eq_some_of_mem _ _ _ (hotfixGroups_keys_nodup nodes) h

theorem hotfixGroups_member (nodes : List VersionGraphNode) {k : String} {mem : List Nat}
    {i : Nat} (hg : (k, mem) ∈ hotfixGroups nodes) (hi : i ∈ mem) :
    ∃ h : i < nodes.length, (nodes.get ⟨i, h⟩).isHotfix = true ∧
      truthyBaseTag (nodes.get ⟨i, h⟩).baseTag = some k := by
  apply mem_group.mp
  rw [mem_hotfixGroups_mget nodes hg]
  exact hi

theorem hotfixGroups_member_unique (nodes : List VersionGraphNode)
    {k k' : String} {mem mem' : List Nat} {i : Nat}
    (hg : (k, mem) ∈ hotfixGroups nodes) (hg' : (k', mem') ∈ hotfixGroups nodes)
    (hi : i ∈ mem) (hi' : i ∈ mem') : k = k' ∧ mem = mem' := by
  obtain ⟨h, hh, hb⟩ := hotfixGroups_member nodes hg hi
  obtain ⟨h', hh', hb'⟩ := hotfixGroups_member nodes hg' hi'
  have hk : k = k' := by
    have := hb.symm.trans hb'
    exact Option.some.injEq _ _ ▸ this
  subst hk
  have := (mem_hotfixGroups_mget nodes hg).symm.trans (mem_hotfixGroups_mget nodes hg')
  exact ⟨rfl, Option.some.injEq _ _ ▸ this⟩

theorem groupStep_not_mem (opts : LayoutOptions) (nodes : List VersionGraphNode)
    (p : Nat → Nat × Nat) (g : String × List Nat) (i : Nat) (h : i ∉ g.2) :
    GraphB.groupStep opts nodes p g i = p i := by
  simp only [GraphB.groupStep]
  cases hf : findBase nodes g.1 with
  | none => rfl
  | some bi =>
    exact assignBranchB_not_mem _ _ _ _ _ _
      (fun hm => h ((sortStableBy_perm _ _).mem_iff.mp hm))

theorem foldl_groupStep_not_mem (opts : LayoutOptions) (nodes : List VersionGraphNode) :
    ∀ (gs : List (String × List Nat)) (p : Nat → Nat × Nat) (i : Nat),
      (∀ g ∈ gs, i ∉ g.2) → gs.foldl (GraphB.groupStep opts nodes) p i = p i
  | [], _, _, _ => rfl
  | g :: gs, p, i, h => by
    rw [List.foldl_cons, foldl_groupStep_not_mem opts nodes gs _ i
      (fun g' hg' => h g' (List.mem_cons_of_mem _ hg'))]
    exact groupStep_not_mem opts nodes p g i (h g (List.mem_cons_self _ _))

theorem processGroups_not_hotfix (opts : LayoutOptions) (nodes : List VersionGraphNode)
    (p1 : Nat → Nat × Nat) (i : Nat) (hi : (nodes.getD i default).isHotfix = false) :
    GraphB.processGroups opts nodes p1 i = p1 i := by
  unfold GraphB.processGroups
  apply foldl_groupStep_not_mem
  intro g hg hmem
  obtain ⟨h, hh, _⟩ := hotfixGroups_member nodes hg hmem
  rw [← getD_get nodes i h] at hh
  rw [hh] at hi
  cases hi

theorem enrich_eq_map (entries : List VersionHistoryEntry) (sfx : List String) :
    enrichVersionsWithHotfixData entries sfx = entries.map (fun v =>
      let info := parseHotfixVersion v.version sfx
      { v with isHotfix := info.isHotfix, baseTag := info.baseVersion,
               hotfixSequence := info.sequence,
               children := (mget (buildHotfixRelationships entries sfx) v.version).getD [] }) := by
  unfold enrichVersionsWithHotfixData
  rw [List.map_map]
  rfl

theorem enrich_map_mkNode (entries : List VersionHistoryEntry) (sfx : List String) :
    (enrichVersionsWithHotfixData entries sfx).map mkNode =
    entries.map (nodeOf entries sfx) := by
  rw [enrich_eq_map, List.map_map]
  rfl

theorem enrich_length (entries : List VersionHistoryEntry) (sfx : List String) :
    (enrichVersionsWithHotfixData entries sfx).length = entries.length := by
  rw [enrich_eq_map, List.length_map]

theorem isEmpty_false_of_ne_nil {α : Type} {l : List α} (h : l ≠ []) :
    l.isEmpty = false := by
  cases l with
  | nil => exact absurd rfl h
  | cons a t => rfl

theorem positionNodes_length (p : Nat → Nat × Nat) (nodes : List VersionGraphNode) :
    (positionNodes p nodes).length = nodes.length := by
  simp [positionNodes]

theorem createNodesAndEdgesB_fst (sfx : List String) (versions : List VersionHistoryEntry) :
    (GraphB.createNodesAndEdges sfx versions).1 = versions.map mkNode := rfl

theorem createNodesAndEdgesA_fst (sfx : List String) (versions : List VersionHistoryEntry) :
    (GraphA.createNodesAndEdges sfx versions).1 = versions.map mkNode := rfl

theorem boundsB_pos (nodes : List VersionGraphNode) (h : nodes.isEmpty = false) :
    0 < (GraphB.calculateBounds nodes).1 ∧ 0 < (GraphB.calculateBounds nodes).2 := by
  simp only [GraphB.calculateBounds, h]
  constructor <;> simp

theorem boundsA_pos (opts : LayoutOptions) (nodes : List VersionGraphNode)
    (h : nodes.isEmpty = false) (hr : 0 < opts.nodeRadius) :
    0 < (GraphA.calculateBounds opts nodes).1 ∧ 0 < (GraphA.calculateBounds opts nodes).2 := by
  simp only [GraphA.calculateBounds, h]
  constructor <;> simp <;> omega

theorem mem_mainIdx {nodes : List VersionGraphNode} {i : Nat} :
    i ∈ mainIdx nodes ↔ ∃ h : i < nodes.length, (nodes.get ⟨i, h⟩).isHotfix = false := by
  unfold mainIdx
  constructor
  · intro hmem
    obtain ⟨pr, hpr, hfst⟩ := List.mem_map.mp hmem
    obtain ⟨hen, hcond⟩ := List.mem_filter.mp hpr
    obtain ⟨h, hg⟩ := List.get?_eq_some.mp (List.mem_enum_iff_get?.mp hen)
    subst hfst
    refine ⟨h, ?_⟩
    rw [hg]
    simpa using hcond
  · rintro ⟨h, hnh⟩
    refine List.mem_map.mpr ⟨(i, nodes.get ⟨i, h⟩), List.mem_filter.mpr ⟨?_, ?_⟩, rfl⟩
    · exact List.mem_enum_iff_get?.mpr (by simp [List.get?_eq_get h])
    · simpa using hnh

theorem mainIdx_nodup (nodes : List VersionGraphNode) : (mainIdx nodes).Nodup := by
  unfold mainIdx
  have h2 : (nodes.enum.map (fun pr => pr.1)).Nodup := by
    have : nodes.enum.map (fun pr => pr.1) = List.range nodes.length := by
      simpa using List.enum_map_fst nodes
    rw [this]
    exact List.nodup_range _
  exact h2.sublist ((List.filter_sublist _).map _)

theorem mainIdx_not_hotfix {nodes : List VersionGraphNode} {i : Nat}
    (h : i ∈ mainIdx nodes) : (nodes.getD i default).isHotfix = false := by
  obtain ⟨hlt, hnh⟩ := mem_mainIdx.mp h
  rw [getD_get nodes i hlt]
  exact hnh

theorem mem_orphanIdx {nodes : List VersionGraphNode} {p : Nat → Nat × Nat} {i : Nat} :
    i ∈ GraphB.orphanIdx nodes p ↔
    i < nodes.length ∧ (nodes.getD i default).isHotfix = true ∧ p i = (0, 0) := by
  unfold GraphB.orphanIdx
  rw [List.mem_filter, List.mem_range]
  simp [Prod.ext_iff, and_assoc]

theorem orphanIdx_nodup (nodes : List VersionGraphNode) (p : Nat → Nat × Nat) :
    (GraphB.orphanIdx nodes p).Nodup :=
  (List.nodup_range _).filter _

theorem mem_of_mget {α : Type} : ∀ (m : List (String × α)) (k : String) (v : α),
    mget m k = some v → (k, v) ∈ m
  | [], _, _, h => by cases h
  | (k0, w) :: rest, k, v, h => by
    simp only [mget] at h
    by_cases hk : k0 = k
    · rw [if_pos hk] at h
      rw [Option.some.injEq] at h
      subst hk; subst h
      exact List.mem_cons_self _ _
    · rw [if_neg hk] at h
      exact List.mem_cons_of_mem _ (mem_of_mget rest k v h)

theorem groupStep_skip (opts : LayoutOptions) (nodes : List VersionGraphNode)
    (p : Nat → Nat × Nat) (g : String × List Nat) (i : Nat)
    (h : findBase nodes g.1 = none) : GraphB.groupStep opts nodes p g i = p i := by
  simp only [GraphB.groupStep]
  rw [h]

theorem foldl_groupStep_skip (opts : LayoutOptions) (nodes : List VersionGraphNode) :
    ∀ (gs : List (String × List Nat)) (p : Nat → Nat × Nat) (i : Nat),
      (∀ g ∈ gs, i ∉ g.2 ∨ findBase nodes g.1 = none) →
      gs.foldl (GraphB.groupStep opts nodes) p i = p i
  | [], _, _, _ => rfl
  | g :: gs, p, i, h => by
    rw [List.foldl_cons, foldl_groupStep_skip opts nodes gs _ i
      (fun g' hg' => h g' (List.mem_cons_of_mem _ hg'))]
    rcases h g (List.mem_cons_self _ _) with hmem | hnone
    · exact groupStep_not_mem opts nodes p g i hmem
    · exact groupStep_skip opts nodes p g i hnone

theorem assignBranchB_y_bounded (hs bi M : Nat) :
    ∀ (l : List Nat) (j : Nat) (p : Nat → Nat × Nat),
      (∀ x, (p x).2 ≤ M) → ∀ x, ((assignBranchB hs bi l j p) x).2 ≤ M
  | [], _, _, hp, x => hp x
  | a :: l, j, p, hp, x => by
    rw [show assignBranchB hs bi (a :: l) j p =
      assignBranchB hs bi l (j + 1) (updPos p a ((j + 1) * hs, (p bi).2)) from rfl]
    refine assignBranchB_y_bounded hs bi M l (j + 1) _ ?_ x
    intro y
    unfold updPos
    by_cases hy : y = a
    · rw [if_pos hy]
      exact hp bi
    · rw [if_neg hy]
      exact hp y

theorem groupStep_y_bounded (opts : LayoutOptions) (nodes : List VersionGraphNode)
    (M : Nat) (p : Nat → Nat × Nat) (g : String × List Nat)
    (hp : ∀ x, (p x).2 ≤ M) : ∀ x, ((GraphB.groupStep opts nodes p g) x).2 ≤ M := by
  intro x
  simp only [GraphB.groupStep]
  cases hf : findBase nodes g.1 with
  | none => exact hp x
  | some bi => exact assignBranchB_y_bounded _ _ M _ _ _ hp x

theorem foldl_groupStep_y_bounded (opts : LayoutOptions) (nodes : List VersionGraphNode)
    (M : Nat) : ∀ (gs : List (String × List Nat)) (p : Nat → Nat × Nat),
      (∀ x, (p x).2 ≤ M) → ∀ x, ((gs.foldl (GraphB.groupStep opts nodes) p) x).2 ≤ M
  | [], _, hp, x => hp x
  | g :: gs, p, hp, x => by
    rw [List.foldl_cons]
    exact foldl_groupStep_y_bounded opts nodes M gs _
      (groupStep_y_bounded opts nodes M p g hp) x

theorem assignSeq_prop (P : Nat × Nat → Prop) (f : Nat → Nat × Nat)
    (hf : ∀ j, P (f j)) : ∀ (l : List Nat) (j : Nat) (p : Nat → Nat × Nat),
      (∀ x, P (p x)) → ∀ x, P (assignSeq f l j p x)
  | [], _, _, hp, x => hp x
  | a :: l, j, p, hp, x => by
    rw [show assignSeq f (a :: l) j p = assignSeq f l (j + 1) (updPos p a (f j)) from rfl]
    refine assignSeq_prop P f hf l (j + 1) _ ?_ x
    intro y
    unfold updPos
    by_cases hy : y = a
    · rw [if_pos hy]; exact hf j
    · rw [if_neg hy]; exact hp y

theorem baseEdgeA_mem {nm : List (String × Nat)} {node : VersionGraphNode}
    {e : VersionGraphEdge} (h : e ∈ baseEdgeA nm node) :
    node.isHotfix = true ∧ e.to_ = node.id ∧ e.isHotfix = true ∧
    truthyBaseTag node.baseTag = some e.from_ := by
  unfold baseEdgeA at h
  split at h
  next hh hb =>
    split at h
    next =>
      rcases List.mem_cons.mp h with rfl | h'
      · exact ⟨hh, rfl, rfl, hb⟩
      · cases h'
    next => cases h
  next => cases h

theorem baseEdgeA_nodup (nm : List (String × Nat)) (node : VersionGraphNode) :
    (baseEdgeA nm node).Nodup := by
  unfold baseEdgeA
  split
  · split
    · simp
    · exact List.Pairwise.nil
  · exact List.Pairwise.nil

theorem chainEdgesOf_mem {sfx : List String} {n : VersionGraphNode}
    {e : VersionGraphEdge} (h : e ∈ chainEdgesOf sfx n) :
    n.isHotfix = false ∧ e.isHotfix = true ∧ e.from_ ∈ n.children ∧ e.to_ ∈ n.children := by
  unfold chainEdgesOf at h
  split at h
  next hcond =>
    rw [Bool.and_eq_true, Bool.not_eq_eq_eq_not, Bool.not_true] at hcond
    obtain ⟨h1, h2, h3⟩ := consecutiveEdges_mem h
    exact ⟨hcond.1, h3, (sortStableBy_perm _ _).mem_iff.mp h1,
      (sortStableBy_perm _ _).mem_iff.mp h2⟩
  next => cases h

theorem chainEdgesOf_nodup (sfx : List String) (n : VersionGraphNode)
    (h : n.children.Nodup) : (chainEdgesOf sfx n).Nodup := by
  unfold chainEdgesOf
  split
  · exact consecutiveEdges_nodup (((sortStableBy_perm _ _).nodup_iff).mpr h)
  · exact List.Pairwise.nil

/-- C2: for the four-entry input `[v1.0.0, v1.0.0-hotfix.1, v1.0.0-hotfix.2,
v2.0.0]`, the child map is exactly `{"v1.0.0": ["v1.0.0-hotfix.1",
"v1.0.0-hotfix.2"]}` with children ascending by sequence, and the assembled
edge list is exactly the main-line edge `v1.0.0 → v2.0.0`, the two base
edges, and the sequence-chain edge `v1.0.0-hotfix.1 → v1.0.0-hotfix.2`. -/
theorem c2_concrete_child_map_and_edges :
    buildHotfixRelationships exampleEntries defaultSuffixes =
      [("v1.0.0", ["v1.0.0-hotfix.1", "v1.0.0-hotfix.2"])] ∧
    (GraphA.createNodesAndEdges defaultSuffixes
        (enrichVersionsWithHotfixData exampleEntries defaultSuffixes)).2 =
      [{ from_ := "v1.0.0", to_ := "v2.0.0", isHotfix := false },
       { from_ := "v1.0.0", to_ := "v1.0.0-hotfix.1", isHotfix := true },
       { from_ := "v1.0.0", to_ := "v1.0.0-hotfix.2", isHotfix := true },
       { from_ := "v1.0.0-hotfix.1", to_ := "v1.0.0-hotfix.2", isHotfix := true }] :=
  ⟨rfl, rfl⟩

/-- C9: on empty input the whole pipeline returns the empty graph
(`nodes = [], edges = [], width = 0, height = 0`) in both layout variants,
for every option set; the pipeline is a total function by construction, so
well-formed input cannot make it throw. -/
theorem c9_empty_input_empty_graph :
    ∀ opts : LayoutOptions,
      GraphA.buildGraph opts [] = { nodes := [], edges := [], width := 0, height := 0 } ∧
      GraphB.buildGraph opts [] = { nodes := [], edges := [], width := 0, height := 0 } :=
  fun _ => ⟨rfl, rfl⟩

/-- Counterexample to C5: after enrichment of `nestedPair` the first entry is
itself a hotfix and nevertheless carries a non-empty `children` list, because
the second entry's parsed `baseVersion` equals the first entry's version
string. -/
theorem c5_counterexample :
    ((enrichVersionsWithHotfixData nestedPair defaultSuffixes).getD 0 default).isHotfix
      = true ∧
    ((enrichVersionsWithHotfixData nestedPair defaultSuffixes).getD 0 default).children
      = ["v1.0.0-hotfix.1-hotfix.2"] :=
  ⟨rfl, rfl⟩

/-- Counterexample to C7: on `nestedEntries` the assembler emits a base edge
into the nested hotfix FROM the hotfix it names as base (in the vertical
variant, and likewise in the horizontal one), instead of leaving it an
orphan. -/
theorem c7_counterexample :
    { from_ := "v1.0.0-hotfix.1", to_ := "v1.0.0-hotfix.1-hotfix.2", isHotfix := true } ∈
      (GraphB.createNodesAndEdges defaultSuffixes
        (enrichVersionsWithHotfixData nestedEntries defaultSuffixes)).2 := by
  decide

/-- Counterexample to C6: on `dupEdgeEntries` (all tags distinct) the
assembled edge list contains the hotfix edge `B → H` twice — once as a base
edge and once as a sequence-chain edge — in both assembler variants. -/
theorem c6_counterexample :
    ¬ ((GraphA.createNodesAndEdges defaultSuffixes
        (enrichVersionsWithHotfixData dupEdgeEntries defaultSuffixes)).2).Nodup ∧
    ¬ ((GraphB.createNodesAndEdges defaultSuffixes
        (enrichVersionsWithHotfixData dupEdgeEntries defaultSuffixes)).2).Nodup := by
  decide

/-- Counterexample to C3: in `staleBaseEntries` (default options) the hotfix
node `H1` (index 0) has a base that resolves — to the hotfix node `X`
(index 1) — yet after layout `H1`'s primary-axis coordinate (`y` in the
vertical variant) differs from its base's. -/
theorem c3_counterexample :
    (((GraphB.buildGraph {} staleBaseEntries).nodes.getD 0 default).isHotfix = true) ∧
    ((GraphB.buildGraph {} staleBaseEntries).nodes.getD 0 default).baseTag = some "X" ∧
    findBase (GraphB.buildGraph {} staleBaseEntries).nodes "X" = some 1 ∧
    ((GraphB.buildGraph {} staleBaseEntries).nodes.getD 0 default).y ≠
      ((GraphB.buildGraph {} staleBaseEntries).nodes.getD 1 default).y := by
  decide

/-- Counterexample to C4: under the third layout variant (which has no orphan
pass) the orphaned hotfix of `orphanEntries` — parsed base `"nope"` matching
no node — remains at the `(0,0)` sentinel, exactly the position of the
main-line release node: not past the end of the main line, not distinct from
`(0,0)`, and overlapping another node. -/
theorem c4_counterexample :
    (((GraphC.buildGraph {} orphanEntries).nodes.getD 1 default).isHotfix = true) ∧
    ((GraphC.buildGraph {} orphanEntries).nodes.getD 1 default).baseTag = some "nope" ∧
    mget (nodeIdxMap (GraphC.buildGraph {} orphanEntries).nodes) "nope" = none ∧
    ((GraphC.buildGraph {} orphanEntries).nodes.getD 1 default).x = 0 ∧
    ((GraphC.buildGraph {} orphanEntries).nodes.getD 1 default).y = 0 ∧
    ((GraphC.buildGraph {} orphanEntries).nodes.getD 0 default).x = 0 ∧
    ((GraphC.buildGraph {} orphanEntries).nodes.getD 0 default).y = 0 := by
  decide

/-- C5 (amended): enrichment attaches a `children` list to EVERY entry —
hotfix entries included — keyed by the entry's own version string: the
attached list is the child map's bucket for that version (empty when the map
has no such key), so a hotfix entry receives a non-empty `children` list
whenever another entry's parsed `baseVersion` equals its version string. -/
theorem c5_amended_children_attached_to_every_entry
    (entries : List VersionHistoryEntry) (sfx : List String) (i : Nat)
    (hi : i < entries.length) :
    ∃ h : i < (enrichVersionsWithHotfixData entries sfx).length,
      ((enrichVersionsWithHotfixData entries sfx).get ⟨i, h⟩).children =
        (mget (buildHotfixRelationships entries sfx)
          ((entries.get ⟨i, hi⟩).version)).getD [] := by
  refine ⟨by rw [enrich_length]; exact hi, ?_⟩
  simp [enrich_eq_map, List.get_eq_getElem, List.getElem_map]

/-- Witness for the amended C5 at `nestedPair`, index 0. -/
theorem c5_amended_children_attached_to_every_entry_witness :
    ∃ h : 0 < (enrichVersionsWithHotfixData nestedPair defaultSuffixes).length,
      ((enrichVersionsWithHotfixData nestedPair defaultSuffixes).get ⟨0, h⟩).children =
        (mget (buildHotfixRelationships nestedPair defaultSuffixes)
          ((nestedPair.get ⟨0, by decide⟩).version)).getD [] :=
  c5_amended_children_attached_to_every_entry nestedPair defaultSuffixes 0 (by decide)

/-- C7 (amended): a hotfix entry whose parsed base resolves — by `version` or
`id`, even to a node that is itself a hotfix — is not rejected and is not
treated as an orphan either: the assembler emits a base edge from the resolved
node's `id` into the hotfix, attaching it to the node it names as base. -/
theorem c7_amended_base_edge_emitted (sfx : List String)
    (versions : List VersionHistoryEntry) (node : VersionGraphNode) (b : String) (bi : Nat)
    (hmem : node ∈ versions.map mkNode)
    (hh : node.isHotfix = true) (hb : truthyBaseTag node.baseTag = some b)
    (hfind : findBase (versions.map mkNode) b = some bi) :
    { from_ := ((versions.map mkNode).getD bi default).id, to_ := node.id,
      isHotfix := true } ∈ (GraphB.createNodesAndEdges sfx versions).2 := by
  simp only [GraphB.createNodesAndEdges]
  refine List.mem_append.mpr (Or.inl (List.mem_append.mpr (Or.inr ?_)))
  refine List.mem_flatten.mpr
    ⟨baseEdgeB (versions.map mkNode) node, List.mem_map.mpr ⟨node, hmem, rfl⟩, ?_⟩
  simp [baseEdgeB, hh, hb, hfind]

/-- Witness for the amended C7 at `nestedEntries`: the nested hotfix is
attached to the hotfix `v1.0.0-hotfix.1` it names as base. -/
theorem c7_amended_base_edge_emitted_witness :
    { from_ := (((enrichVersionsWithHotfixData nestedEntries defaultSuffixes).map
        mkNode).getD 1 default).id,
      to_ := (mkNode ((enrichVersionsWithHotfixData nestedEntries
        defaultSuffixes).getD 2 default)).id, isHotfix := true } ∈
      (GraphB.createNodesAndEdges defaultSuffixes
        (enrichVersionsWithHotfixData nestedEntries defaultSuffixes)).2 := by
  have h := c7_amended_base_edge_emitted defaultSuffixes
    (enrichVersionsWithHotfixData nestedEntries defaultSuffixes)
    (mkNode ((enrichVersionsWithHotfixData nestedEntries defaultSuffixes).getD 2 default))
    "v1.0.0-hotfix.1" 1 (by decide) (by decide) (by decide) (by decide)
  exact h

/-- C3 (amended): for every node list and positive spacing options, the
vertical-variant layout gives the `j`-th main-line node the primary-axis
(vertical) coordinate `j * verticalSpacing` at the secondary-axis baseline
`x = 0`; and every hotfix group whose base reference resolves to a MAIN-LINE
(non-hotfix) node is sorted ascending by sequence key and placed at its base's
primary-axis coordinate with secondary-axis offsets `(1..k) *
horizontalSpacing`.  (When the base resolves to a node that is itself a
hotfix, the code can read a not-yet-final position and the equality with the
base's final primary coordinate fails — see the counterexample.) -/
theorem c3_amended_layout_positions (opts : LayoutOptions) (nodes : List VersionGraphNode)
    (hhs : 0 < opts.horizontalSpacing) :
    (∀ j (hj : j < (mainIdx nodes).length),
      GraphB.calculatePositions opts nodes ((mainIdx nodes).get ⟨j, hj⟩) =
        (0, j * opts.verticalSpacing)) ∧
    (∀ k mem, (k, mem) ∈ hotfixGroups nodes →
      ∀ bi, findBase nodes k = some bi → (nodes.getD bi default).isHotfix = false →
        List.Pairwise (fun a b => groupKey opts.hotfixSuffixes nodes a ≤
          groupKey opts.hotfixSuffixes nodes b)
          (sortStableBy (groupKey opts.hotfixSuffixes nodes) mem) ∧
        (sortStableBy (groupKey opts.hotfixSuffixes nodes) mem).Perm mem ∧
        ∀ j (hj : j < (sortStableBy (groupKey opts.hotfixSuffixes nodes) mem).length),
          GraphB.calculatePositions opts nodes
            ((sortStableBy (groupKey opts.hotfixSuffixes nodes) mem).get ⟨j, hj⟩) =
          ((j + 1) * opts.horizontalSpacing,
            (GraphB.calculatePositions opts nodes bi).2)) := by
  simp only [GraphB.calculatePositions]
  set p1 : Nat → Nat × Nat :=
    assignSeq (fun j => (0, j * opts.verticalSpacing)) (mainIdx nodes) 0 (fun _ => (0, 0))
    with hp1
  set p2 : Nat → Nat × Nat := GraphB.processGroups opts nodes p1 with hp2
  constructor
  · intro j hj
    have himem : (mainIdx nodes).get ⟨j, hj⟩ ∈ mainIdx nodes := List.get_mem _ _ _
    have hnh := mainIdx_not_hotfix himem
    rw [assignSeq_not_mem _ _ _ _ _
      (fun hmem => by rw [(mem_orphanIdx.mp hmem).2.1] at hnh; cases hnh)]
    rw [hp2, processGroups_not_hotfix opts nodes p1 _ hnh, hp1,
      assignSeq_get _ _ _ _ _ hj (mainIdx_nodup nodes), Nat.zero_add]
  · intro k mem hg bi hfind hbi
    refine ⟨sortStableBy_sorted _ _, sortStableBy_perm _ _, ?_⟩
    intro j hj
    set sorted := sortStableBy (groupKey opts.hotfixSuffixes nodes) mem with hsorted
    set m := sorted.get ⟨j, hj⟩ with hm
    have hmsorted : m ∈ sorted := List.get_mem _ _ _
    have hmmem : m ∈ mem := (sortStableBy_perm _ _).mem_iff.mp hmsorted
    -- members of the group are hotfix nodes
    have hmemhot : ∀ x ∈ mem, x < nodes.length ∧ (nodes.getD x default).isHotfix = true := by
      intro x hx
      obtain ⟨h, hh, _⟩ := hotfixGroups_member nodes hg hx
      exact ⟨h, by rw [getD_get nodes x h]; exact hh⟩
    have hbimem : bi ∉ mem := fun hx => by
      rw [(hmemhot bi hx).2] at hbi; cases hbi
    have hbisorted : bi ∉ sorted := fun hx => hbimem ((sortStableBy_perm _ _).mem_iff.mp hx)
    have hmemnd : mem.Nodup := by
      have := mem_hotfixGroups_mget nodes hg
      have h2 := group_nodup nodes k
      rw [this] at h2
      exact h2
    have hsortnd : sorted.Nodup := ((sortStableBy_perm _ _).nodup_iff).mpr hmemnd
    -- split the group list at our group
    obtain ⟨gs1, gs2, hsplit⟩ := List.append_of_mem hg
    have hkeys := hotfixGroups_keys_nodup nodes
    rw [hsplit, List.map_append, List.map_cons] at hkeys
    obtain ⟨hk1n, hk2n, hdisj⟩ := List.nodup_append.mp hkeys
    have hknot1 : k ∉ gs1.map (fun p => p.1) :=
      fun hkk => (hdisj hkk) (List.mem_cons_self _ _)
    have hknot2 : k ∉ gs2.map (fun p => p.1) := (List.nodup_cons.mp hk2n).1
    -- no other group contains a member of ours
    have hother : ∀ g', (g' ∈ gs1 ∨ g' ∈ gs2) → ∀ x ∈ mem, x ∉ g'.2 := by
      intro g' hg' x hx hx'
      have hgmem : g' ∈ hotfixGroups nodes := by
        rw [hsplit]
        rcases hg' with h | h
        · exact List.mem_append_left _ h
        · exact List.mem_append_right _ (List.mem_cons_of_mem _ h)
      obtain ⟨hkeq, -⟩ := hotfixGroups_member_unique nodes hg hgmem hx hx'
      rcases hg' with h | h
      · exact hknot1 (hkeq ▸ List.mem_map.mpr ⟨g', h, rfl⟩)
      · exact hknot2 (hkeq ▸ List.mem_map.mpr ⟨g', h, rfl⟩)
    -- evaluate the group pass at m and at bi
    have hp2m : p2 m = ((j + 1) * opts.horizontalSpacing, (p1 bi).2) := by
      rw [hp2]
      unfold GraphB.processGroups
      rw [hsplit, List.foldl_append, List.foldl_cons]
      rw [foldl_groupStep_not_mem opts nodes gs2 _ m
        (fun g' hg' => hother g' (Or.inr hg') m hmmem)]
      have hq : ∀ x, (nodes.getD x default).isHotfix = false →
          List.foldl (GraphB.groupStep opts nodes) p1 gs1 x = p1 x := by
        intro x hx
        apply foldl_groupStep_not_mem
        intro g' hg' hx'
        have hgmem : g' ∈ hotfixGroups nodes := by
          rw [hsplit]; exact List.mem_append_left _ hg'
        obtain ⟨h, hh, _⟩ := hotfixGroups_member nodes hgmem hx'
        rw [getD_get nodes x h] at hx
        rw [hh] at hx
        cases hx
      simp only [GraphB.groupStep]
      rw [hfind]
      show assignBranchB opts.horizontalSpacing bi sorted 0
        (List.foldl (GraphB.groupStep opts nodes) p1 gs1) m =
        ((j + 1) * opts.horizontalSpacing, (p1 bi).2)
      rw [hm, assignBranchB_get _ _ _ _ _ j hj hsortnd hbisorted, Nat.zero_add,
        hq bi hbi]
    have hp2bi : p2 bi = p1 bi := by
      rw [hp2]
      exact processGroups_not_hotfix opts nodes p1 bi hbi
    -- the orphan pass touches neither m nor bi
    have hmorph : m ∉ GraphB.orphanIdx nodes p2 := by
      intro hmem
      have := (mem_orphanIdx.mp hmem).2.2
      rw [hp2m] at this
      rw [Prod.mk.injEq] at this
      have hpos := Nat.mul_pos (Nat.succ_pos j) hhs
      rw [this.1] at hpos
      exact Nat.lt_irrefl 0 hpos
    have hbiorph : bi ∉ GraphB.orphanIdx nodes p2 := by
      intro hmem
      rw [(mem_orphanIdx.mp hmem).2.1] at hbi
      cases hbi
    rw [assignSeq_not_mem _ _ _ _ _ hmorph, assignSeq_not_mem _ _ _ _ _ hbiorph,
      hp2m, hp2bi]

/-- Witness for the amended C3 at the four-entry example input: the first
hotfix of the (sorted) group of `v1.0.0` sits at `(1 * 150, y(v1.0.0))`. -/
theorem c3_amended_layout_positions_witness :
    GraphB.calculatePositions {}
      ((enrichVersionsWithHotfixData exampleEntries defaultSuffixes).map mkNode)
      ((sortStableBy (groupKey ({} : LayoutOptions).hotfixSuffixes
        ((enrichVersionsWithHotfixData exampleEntries defaultSuffixes).map mkNode)) [1, 2]).get
        ⟨0, by decide⟩) =
    ((0 + 1) * ({} : LayoutOptions).horizontalSpacing,
      (GraphB.calculatePositions {}
        ((enrichVersionsWithHotfixData exampleEntries defaultSuffixes).map mkNode) 0).2) := by
  have h := (c3_amended_layout_positions {}
    ((enrichVersionsWithHotfixData exampleEntries defaultSuffixes).map mkNode)
    (by decide)).2 "v1.0.0" [1, 2] (by decide) 0 (by decide) (by decide)
  exact h.2.2 0 (by decide)

/-- C4 (amended): in the layout variant that implements the orphan pass, a
hotfix node whose base reference resolves to no node (by `version` or `id`)
still appears in the output node list and receives a fallback position that
is distinct from the `(0,0)` sentinel, strictly past the end of the main
line on the primary axis, and distinct from every other node's position —
given positive spacing options.  (The repository's other layout variant has
no orphan pass; there the orphan stays at `(0,0)` and can overlap a
main-line node — see the counterexample.) -/
theorem c4_amended_orphan_fallback (opts : LayoutOptions) (nodes : List VersionGraphNode)
    (i : Nat) (b : String)
    (hhs : 0 < opts.horizontalSpacing) (hvs : 0 < opts.verticalSpacing)
    (hi : i < nodes.length)
    (hhot : (nodes.getD i default).isHotfix = true)
    (hbt : truthyBaseTag (nodes.getD i default).baseTag = some b)
    (hfind : findBase nodes b = none) :
    GraphB.calculatePositions opts nodes i ≠ (0, 0) ∧
    (∀ j ∈ mainIdx nodes, (GraphB.calculatePositions opts nodes j).2 <
      (GraphB.calculatePositions opts nodes i).2) ∧
    (∀ j, j < nodes.length → j ≠ i →
      GraphB.calculatePositions opts nodes j ≠ GraphB.calculatePositions opts nodes i) ∧
    (positionNodes (GraphB.calculatePositions opts nodes) nodes).length = nodes.length := by
  simp only [GraphB.calculatePositions]
  set p1 : Nat → Nat × Nat :=
    assignSeq (fun j => (0, j * opts.verticalSpacing)) (mainIdx nodes) 0 (fun _ => (0, 0))
    with hp1
  set p2 : Nat → Nat × Nat := GraphB.processGroups opts nodes p1 with hp2
  set M := GraphB.maxMainY nodes p2 with hM
  set orph := GraphB.orphanIdx nodes p2 with horph
  set pf : Nat → Nat × Nat := assignSeq
    (fun j => (opts.horizontalSpacing, M + (j + 1) * opts.verticalSpacing)) orph 0 p2
    with hpf
  have hinotmain : i ∉ mainIdx nodes := fun hm => by
    rw [mainIdx_not_hotfix hm] at hhot; cases hhot
  have hp1i : p1 i = (0, 0) := by
    rw [hp1, assignSeq_not_mem _ _ _ _ _ hinotmain]
  have hp2i : p2 i = (0, 0) := by
    have hskip : ∀ g ∈ hotfixGroups nodes, i ∉ g.2 ∨ findBase nodes g.1 = none := by
      intro g hg
      by_cases hmem : i ∈ g.2
      · right
        obtain ⟨hlt, hh, hb⟩ := hotfixGroups_member nodes hg hmem
        rw [← getD_get nodes i hlt, hbt] at hb
        have hbg : b = g.1 := by rw [Option.some.injEq] at hb; exact hb
        rw [← hbg]
        exact hfind
      · exact Or.inl hmem
    rw [hp2]
    unfold GraphB.processGroups
    rw [foldl_groupStep_skip opts nodes (hotfixGroups nodes) p1 i hskip]
    exact hp1i
  have hiorph : i ∈ orph := by
    rw [horph]
    exact mem_orphanIdx.mpr ⟨hi, hhot, hp2i⟩
  obtain ⟨⟨jo, hjo⟩, hjoget⟩ := List.mem_iff_get.mp hiorph
  have horphnd : orph.Nodup := by rw [horph]; exact orphanIdx_nodup nodes p2
  have hpfi : pf i = (opts.horizontalSpacing, M + (jo + 1) * opts.verticalSpacing) := by
    rw [hpf, ← hjoget, assignSeq_get _ _ _ _ _ hjo horphnd]
    simp
  have hMp1 : GraphB.maxMainY nodes p1 = M := by
    rw [hM]
    unfold GraphB.maxMainY
    exact foldl_max_congr (fun x => (p1 x).2) (fun x => (p2 x).2) (mainIdx nodes) 0
      (fun x hx => by
        show (p1 x).2 = (p2 x).2
        rw [hp2, processGroups_not_hotfix opts nodes p1 x (mainIdx_not_hotfix hx)])
  have hbound1 : ∀ x, (p1 x).2 ≤ M := by
    intro x
    rw [← hMp1]
    by_cases hx : x ∈ mainIdx nodes
    · exact le_foldl_max (fun y => (p1 y).2) (mainIdx nodes) 0 x hx
    · rw [hp1, assignSeq_not_mem _ _ _ _ _ hx]
      rw [hp1] at *
      exact Nat.zero_le _
  have hbound2 : ∀ x, (p2 x).2 ≤ M := by
    intro x
    rw [hp2]
    unfold GraphB.processGroups
    exact foldl_groupStep_y_bounded opts nodes M (hotfixGroups nodes) p1 hbound1 x
  refine ⟨?_, ?_, ?_, positionNodes_length _ _⟩
  · rw [hpfi]
    intro hcontra
    rw [Prod.mk.injEq] at hcontra
    rw [hcontra.1] at hhs
    exact Nat.lt_irrefl 0 hhs
  · intro j hjm
    have hpfj : pf j = p2 j := by
      rw [hpf]
      apply assignSeq_not_mem
      intro hmem
      rw [horph] at hmem
      have := (mem_orphanIdx.mp hmem).2.1
      rw [mainIdx_not_hotfix hjm] at this
      cases this
    rw [hpfj, hpfi]
    show (p2 j).2 < M + (jo + 1) * opts.verticalSpacing
    have h1 := hbound2 j
    have h2 : 0 < (jo + 1) * opts.verticalSpacing := Nat.mul_pos (Nat.succ_pos jo) hvs
    omega
  · intro j hjlt hjne heq
    by_cases hjhot : (nodes.getD j default).isHotfix = true
    · by_cases hjorph : j ∈ orph
      · obtain ⟨⟨jo', hjo'⟩, hjoget'⟩ := List.mem_iff_get.mp hjorph
        have hpfj : pf j = (opts.horizontalSpacing, M + (jo' + 1) * opts.verticalSpacing) := by
          rw [hpf, ← hjoget', assignSeq_get _ _ _ _ _ hjo' horphnd]
          simp
        rw [hpfj, hpfi, Prod.mk.injEq] at heq
        have hyeq := heq.2
        have hcancel := Nat.add_left_cancel hyeq
        have hjo_eq : jo' = jo := by
          have h3 := Nat.eq_of_mul_eq_mul_right hvs hcancel
          omega
        subst hjo_eq
        exact hjne (hjoget'.symm.trans hjoget)
      · have hpfj : pf j = p2 j := by
          rw [hpf]
          exact assignSeq_not_mem _ _ _ _ _ hjorph
        rw [hpfj, hpfi, Prod.mk.injEq] at heq
        have h1 := hbound2 j
        have h2 : 0 < (jo + 1) * opts.verticalSpacing := Nat.mul_pos (Nat.succ_pos jo) hvs
        have hy := heq.2
        rw [hy] at h1
        omega
    · have hjnothot : (nodes.getD j default).isHotfix = false := by
        cases h : (nodes.getD j default).isHotfix with
        | false => rfl
        | true => exact absurd h hjhot
      have hpfj : pf j = p1 j := by
        rw [hpf]
        rw [assignSeq_not_mem _ _ _ _ _ ?_]
        · rw [hp2]
          exact processGroups_not_hotfix opts nodes p1 j hjnothot
        · intro hmem
          rw [horph] at hmem
          have := (mem_orphanIdx.mp hmem).2.1
          rw [hjnothot] at this
          cases this
      have hfst : (p1 j).1 = 0 := by
        rw [hp1]
        exact assignSeq_prop (fun v => v.1 = 0) _ (fun _ => rfl) _ _ _ (fun _ => rfl) j
      rw [hpfj, hpfi, Prod.mk.injEq] at heq
      have hx := heq.1
      rw [hfst] at hx
      rw [← hx] at hhs
      exact Nat.lt_irrefl 0 hhs

/-- Witness for the amended C4 at `orphanEntries` with default options: the
orphaned hotfix (node index 1) is not at the origin. -/
theorem c4_amended_orphan_fallback_witness :
    GraphB.calculatePositions {}
      ((enrichVersionsWithHotfixData orphanEntries defaultSuffixes).map mkNode) 1 ≠
      (0, 0) :=
  (c4_amended_orphan_fallback {}
    ((enrichVersionsWithHotfixData orphanEntries defaultSuffixes).map mkNode) 1 "nope"
    (by decide) (by decide) (by decide) (by decide) (by decide) (by decide)).1

/-- C6 (amended): for every input in which each entry's `tag` equals its
`version` string and all tags are distinct, the assembled edge list contains
no duplicate — no two emitted edges share `from`, `to` and `isHotfix`.
(Without the tag-equals-version condition a base edge can coincide with a
sequence-chain edge and is emitted twice — see the counterexample.) -/
theorem c6_amended_no_duplicate_edges (sfx : List String)
    (entries : List VersionHistoryEntry)
    (htv : ∀ e ∈ entries, e.tag = e.version)
    (hnd : (entries.map (fun e => e.tag)).Nodup) :
    ((GraphA.createNodesAndEdges sfx (enrichVersionsWithHotfixData entries sfx)).2).Nodup := by
  have hnodes : (enrichVersionsWithHotfixData entries sfx).map mkNode =
      entries.map (nodeOf entries sfx) := enrich_map_mkNode entries sfx
  simp only [GraphA.createNodesAndEdges]
  set nodes := (enrichVersionsWithHotfixData entries sfx).map mkNode with hnodesdef
  have hids : nodes.map (fun n => n.id) = entries.map (fun e => e.tag) := by
    rw [hnodes, List.map_map]
    rfl
  have hidnd : (nodes.map (fun n => n.id)).Nodup := by rw [hids]; exact hnd
  have hpair : List.Pairwise (fun a b : VersionGraphNode => a.id ≠ b.id) nodes :=
    List.pairwise_map.mp hidnd
  have hshape : ∀ n ∈ nodes, ∃ en, en ∈ entries ∧ n = nodeOf entries sfx en := by
    intro n hn
    rw [hnodes] at hn
    obtain ⟨en, hen, rfl⟩ := List.mem_map.mp hn
    exact ⟨en, hen, rfl⟩
  have hinj : ∀ x ∈ entries, ∀ y ∈ entries, x.tag = y.tag → x = y :=
    fun x hx y hy hf => List.inj_on_of_nodup_map hnd hx hy hf
  have hchnd : ∀ n ∈ nodes, n.children.Nodup := by
    intro n hn
    obtain ⟨en, hen, rfl⟩ := hshape n hn
    exact bucket_nodup entries sfx en.version hnd
  refine List.nodup_append.mpr ⟨List.nodup_append.mpr ⟨?_, ?_, ?_⟩, ?_, ?_⟩
  · -- main-line edges
    exact consecutiveEdges_nodup (hidnd.sublist ((List.filter_sublist _).map _))
  · -- base edges
    refine flatten_nodup_of_pairwise _ nodes (fun x _ => baseEdgeA_nodup _ x) ?_
    refine hpair.imp ?_
    intro x y hne e he1 he2
    exact hne (((baseEdgeA_mem he1).2.1).symm.trans ((baseEdgeA_mem he2).2.1))
  · -- main vs base disjoint (isHotfix flag differs)
    intro e he hbe
    obtain ⟨lst, hlst, helst⟩ := List.mem_flatten.mp hbe
    obtain ⟨x, hx, rfl⟩ := List.mem_map.mp hlst
    have h1 := (consecutiveEdges_mem he).2.2
    have h2 := (baseEdgeA_mem helst).2.2.1
    rw [h1] at h2
    cases h2
  · -- chain edges
    refine flatten_nodup_of_pairwise _ nodes
      (fun x hx => chainEdgesOf_nodup sfx x (hchnd x hx)) ?_
    refine List.Pairwise.imp_of_mem ?_ hpair
    intro x y hxmem hymem hne e he1 he2
    obtain ⟨ex, hex, rfl⟩ := hshape x hxmem
    obtain ⟨ey, hey, rfl⟩ := hshape y hymem
    have hf1 : e.from_ ∈ (nodeOf entries sfx ex).children := (chainEdgesOf_mem he1).2.2.1
    have hf2 : e.from_ ∈ (nodeOf entries sfx ey).children := (chainEdgesOf_mem he2).2.2.1
    obtain ⟨v1, hv1, hk1, ht1⟩ := mem_bucket.mp hf1
    obtain ⟨v2, hv2, hk2, ht2⟩ := mem_bucket.mp hf2
    have hv12 : v1 = v2 := hinj v1 hv1 v2 hv2 (ht1.trans ht2.symm)
    have hkeq : ex.version = ey.version := by
      have := (hv12 ▸ hk1).symm.trans hk2
      exact Option.some.injEq _ _ ▸ this
    apply hne
    show ex.tag = ey.tag
    rw [htv ex hex, htv ey hey]
    exact hkeq
  · -- (main ++ base) vs chain disjoint
    intro e he hce
    obtain ⟨lst, hlst, helst⟩ := List.mem_flatten.mp hce
    obtain ⟨y, hy, rfl⟩ := List.mem_map.mp hlst
    obtain ⟨hyh, heh, hfrom, hto⟩ := chainEdgesOf_mem helst
    rcases List.mem_append.mp he with hm | hb
    · -- main edge has isHotfix = false
      have h1 := (consecutiveEdges_mem hm).2.2
      rw [heh] at h1
      cases h1
    · -- base edge coinciding with a chain edge is impossible
      obtain ⟨lst2, hlst2, helst2⟩ := List.mem_flatten.mp hb
      obtain ⟨x, hx, rfl⟩ := List.mem_map.mp hlst2
      obtain ⟨hxh, hxto, _, hxbt⟩ := baseEdgeA_mem helst2
      obtain ⟨ex, hex, rfl⟩ := hshape x hx
      obtain ⟨ey, hey, rfl⟩ := hshape y hy
      -- e.to_ is in the bucket of ey.version, and equals ex.tag
      obtain ⟨v2, hv2, hk2, ht2⟩ := mem_bucket.mp hto
      have hv2ex : v2 = ex := by
        apply hinj v2 hv2 ex hex
        rw [ht2]
        exact hxto
      -- so ex's parsed base (= x.baseTag) is ey.version, hence e.from_ = ey.version
      subst hv2ex
      obtain ⟨hexhot, hexbase⟩ := childKey_eq_some.mp hk2
      have hfromeq : e.from_ = ey.version := by
        have hbt : truthyBaseTag (nodeOf entries sfx v2).baseTag = some ey.version := hexbase
        have := (hxbt.symm.trans hbt)
        exact Option.some.injEq _ _ ▸ this
      -- but e.from_ is also in the bucket of ey.version, so the entry tagged
      -- ey.version is a hotfix — contradicting that y is a main-line node
      obtain ⟨v1, hv1, hk1, ht1⟩ := mem_bucket.mp hfrom
      have hv1ey : v1 = ey := by
        apply hinj v1 hv1 ey hey
        rw [ht1, hfromeq, htv ey hey]
      subst hv1ey
      have heyhot := (childKey_eq_some.mp hk1).1
      have : (nodeOf entries sfx v1).isHotfix = true := heyhot
      rw [hyh] at this
      cases this

/-- Witness for the amended C6 at the four-entry example input. -/
theorem c6_amended_no_duplicate_edges_witness :
    ((GraphA.createNodesAndEdges defaultSuffixes
      (enrichVersionsWithHotfixData exampleEntries defaultSuffixes)).2).Nodup :=
  c6_amended_no_duplicate_edges defaultSuffixes exampleEntries (by decide) (by decide)

/-- C10: for every non-empty input the returned width and height are strictly
positive: the vertical variant adds the fixed paddings 200 and 100 to the
maximal coordinates, and the horizontal variant adds `nodeRadius * 4`, which
is positive whenever `nodeRadius` is (no caller overrides the default 20). -/
theorem c10_nonempty_positive_bounds (opts : LayoutOptions)
    (versions : List VersionHistoryEntry) (hne : versions ≠ []) :
    0 < (GraphB.buildGraph opts versions).width ∧
    0 < (GraphB.buildGraph opts versions).height ∧
    (0 < opts.nodeRadius →
      0 < (GraphA.buildGraph opts versions).width ∧
      0 < (GraphA.buildGraph opts versions).height) := by
  have hie := isEmpty_false_of_ne_nil hne
  have hnnB : (positionNodes
      (GraphB.calculatePositions opts ((GraphB.createNodesAndEdges opts.hotfixSuffixes
        (enrichVersionsWithHotfixData versions opts.hotfixSuffixes)).1))
      ((GraphB.createNodesAndEdges opts.hotfixSuffixes
        (enrichVersionsWithHotfixData versions opts.hotfixSuffixes)).1)).isEmpty = false := by
    apply isEmpty_false_of_ne_nil
    intro h
    have := congrArg List.length h
    rw [positionNodes_length, createNodesAndEdgesB_fst, List.length_map,
      enrich_length] at this
    exact hne (List.length_eq_zero.mp this)
  have hnnA : (positionNodes
      (GraphA.calculatePositions opts ((GraphA.createNodesAndEdges opts.hotfixSuffixes
        (enrichVersionsWithHotfixData versions opts.hotfixSuffixes)).1))
      ((GraphA.createNodesAndEdges opts.hotfixSuffixes
        (enrichVersionsWithHotfixData versions opts.hotfixSuffixes)).1)).isEmpty = false := by
    apply isEmpty_false_of_ne_nil
    intro h
    have := congrArg List.length h
    rw [positionNodes_length, createNodesAndEdgesA_fst, List.length_map,
      enrich_length] at this
    exact hne (List.length_eq_zero.mp this)
  simp only [GraphB.buildGraph, GraphA.buildGraph, hie, Bool.false_eq_true, if_false]
  exact ⟨(boundsB_pos _ hnnB).1, (boundsB_pos _ hnnB).2,
    fun hr => ⟨(boundsA_pos opts _ hnnA hr).1, (boundsA_pos opts _ hnnA hr).2⟩⟩

/-- Witness for C10 at the four-entry example input with default options. -/
theorem c10_nonempty_positive_bounds_witness :
    0 < (GraphB.buildGraph {} exampleEntries).width ∧
    0 < (GraphA.buildGraph {} exampleEntries).width :=
  ⟨(c10_nonempty_positive_bounds {} exampleEntries (by decide)).1,
    ((c10_nonempty_positive_bounds {} exampleEntries (by decide)).2.2 (by decide)).1⟩

end Forge
